import Mathlib

/-!
Verification of the context-selection core of the `graph-of-context-ui` backend
(`backend/app/goc_core/context_ops.py`, `backend/app/goc_core/unfold_planner.py`,
`backend/app/services/embedding.py`, `backend/app/services/hierarchy.py`).

Conventions of the shallow embedding:
* Python strings are `String`, Python ints are `Int`/`Nat` (Python ints are
  unbounded, so no modular arithmetic is needed), Python floats that only ever
  hold exact decimal/ratio arithmetic are modelled as `ℚ`.
* Python lists are `List`, Python sets are duplicate-free `List`s used only
  through membership, cardinality and `sorted`.
* `None`-able values are `Option`, raised exceptions are `Except`.
* Node/edge records (`Dict[str, Any]`) are modelled as structures carrying the
  fields the translated functions read.
-/

namespace GoC

/-- Edge record as consumed by the core: `from_id`, `to_id`, `type`
(field `type` is named `etype` here because of Lean's syntax). -/
structure EdgeView where
  from_id : String
  to_id : String
  etype : String
deriving DecidableEq, Repr

/-- Worker of `ordered_unique`: `seen` is the accumulator set. -/
def orderedUniqueGo (seen : List String) : List String → List String
  | [] => []
  | nid :: rest =>
    if nid = "" ∨ nid ∈ seen then orderedUniqueGo seen rest
    else nid :: orderedUniqueGo (nid :: seen) rest

/-- `ordered_unique` from `context_ops.py`: drops empty ids and duplicates,
keeping first occurrences.  (The Python guard also drops non-string entries;
ids are modelled as strings, so that case does not arise.) -/
def ordered_unique (ids : List String) : List String :=
  orderedUniqueGo [] ids

/-- One entry of `edge_trace`: the Python dict
`{"from": src, "to": dst, "type": etype, "dir": rel}`. -/
structure TraceEntry where
  src : String
  dst : String
  etype : String
  dir : String
deriving DecidableEq, Repr

/-- Mutable state of the BFS in `expand_closure_from_edges`:
`visited` (a set, kept here as a duplicate-free list), the FIFO queue `q`,
`edge_trace` and the `truncated` flag. -/
structure ExpSt where
  visited : List String
  q : List String
  trace : List TraceEntry
  truncated : Bool
deriving Repr

/-- The recording half of `_offer`: append the trace entry, and enqueue/mark
`dst` when it is new. -/
def offerRecord (st : ExpSt) (src dst etype rel : String) : ExpSt :=
  let st1 : ExpSt := { st with trace := st.trace ++ [⟨src, dst, etype, rel⟩] }
  if dst ∈ st1.visited then st1
  else { st1 with visited := st1.visited ++ [dst], q := st1.q ++ [dst] }

/-- `_offer(src, dst, etype, rel)` from `expand_closure_from_edges`. -/
def offer (max_nodes : Option Int) (st : ExpSt) (src dst etype rel : String) : ExpSt :=
  match max_nodes with
  | some m =>
    if m ≤ (st.visited.length : Int) ∧ dst ∉ st.visited then { st with truncated := true }
    else offerRecord st src dst etype rel
  | none => offerRecord st src dst etype rel

/-- A `for`-loop over an adjacency list that `break`s as soon as `truncated`
is set (the `if truncated: break` after each `_offer` call). -/
def offerLoop (f : ExpSt → String × String → ExpSt) : ExpSt → List (String × String) → ExpSt
  | st, [] => st
  | st, p :: rest =>
    let st1 := f st p
    if st1.truncated then st1 else offerLoop f st1 rest

/-- The body of the `while q` loop for one dequeued node `cur`: the out-edge
loop (when direction is out/both), then the in-edge loop (when direction is
in/both), each aborting on truncation.  Note the source calls
`_offer(prv, cur, ...)` for in-edges, i.e. the offered (`dst`) node is `cur`
itself, not the in-neighbour `prv`. -/
def stepNode (direction : String) (outA inA : String → List (String × String))
    (max_nodes : Option Int) (st : ExpSt) (cur : String) : ExpSt :=
  let st1 :=
    if direction = "out" ∨ direction = "both" then
      offerLoop (fun s p => offer max_nodes s cur p.1 p.2 "out") st (outA cur)
    else st
  if st1.truncated then st1
  else
    if direction = "in" ∨ direction = "both" then
      offerLoop (fun s p => offer max_nodes s p.1 cur p.2 "in") st1 (inA cur)
    else st1

/-- The `while q` loop.  The Python loop always terminates (every enqueued id
was freshly added to `visited`, which is bounded by the finite id universe);
it is embedded with a fuel parameter, and `expand_closure_from_edges` passes
fuel that is provably larger than the number of possible iterations. -/
def bfsRun (direction : String) (outA inA : String → List (String × String))
    (max_nodes : Option Int) : Nat → ExpSt → ExpSt
  | 0, st => st
  | fuel + 1, st =>
    match st.q with
    | [] => st
    | cur :: rest =>
      let st1 := stepNode direction outA inA max_nodes { st with q := rest } cur
      if st1.truncated then st1 else bfsRun direction outA inA max_nodes fuel st1

/-- Keep an edge for the adjacency build: allowed type and non-empty endpoint
ids (`if et not in allowed: continue` / `if not u or not v: continue`). -/
def edgeAllowed (allowed : List String) (e : EdgeView) : Bool :=
  allowed.contains e.etype && e.from_id != "" && e.to_id != ""

/-- Structural lexicographic comparison of character lists by code point.
This embeds Python's string `<`; it is kernel-computable, unlike the
iterator-based `String.ltb`. -/
def charsLt : List Char → List Char → Bool
  | _, [] => false
  | [], _ :: _ => true
  | a :: as, b :: bs =>
    if a.toNat < b.toNat then true
    else if b.toNat < a.toNat then false
    else charsLt as bs

/-- Python string `<` (lexicographic by code point). -/
def strLt (a b : String) : Bool :=
  charsLt a.data b.data

/-- Python string `<=` as a boolean. -/
def strLeB (a b : String) : Bool :=
  strLt a b || a == b

/-- Python string `<=` as a relation (used by the `sorted` embeddings). -/
def strLe (a b : String) : Prop :=
  strLeB a b = true

instance : DecidableRel strLe := fun a b =>
  inferInstanceAs (Decidable (_ = true))

/-- Order used to sort each adjacency list: `key=lambda x: (x[0], x[1])`,
non-strict so that insertion sort is stable exactly like Python's `sorted`. -/
def pairLe (a b : String × String) : Prop :=
  (strLt a.1 b.1 || (a.1 == b.1 && strLeB a.2 b.2)) = true

instance : DecidableRel pairLe := fun a b =>
  inferInstanceAs (Decidable (_ = true))

/-- `sorted` on `(neighbor_id, edge_type)` pairs. -/
def sortPairs (l : List (String × String)) : List (String × String) :=
  List.insertionSort pairLe l

/-- `sorted` on plain strings. -/
def sortStrings (l : List String) : List String :=
  List.insertionSort strLe l

/-- `out_adj[u]`, already restricted to allowed edges and sorted. -/
def outAdj (allowed : List String) (edges : List EdgeView) (u : String) :
    List (String × String) :=
  sortPairs (((edges.filter (edgeAllowed allowed)).filter (fun e => e.from_id == u)).map
    (fun e => (e.to_id, e.etype)))

/-- `in_adj[v]`, already restricted to allowed edges and sorted. -/
def inAdj (allowed : List String) (edges : List EdgeView) (v : String) :
    List (String × String) :=
  sortPairs (((edges.filter (edgeAllowed allowed)).filter (fun e => e.to_id == v)).map
    (fun e => (e.from_id, e.etype)))

/-- Return value of `expand_closure_from_edges`. -/
structure ClosureResult where
  ordered_ids : List String
  seed_ids : List String
  closure_added_ids : List String
  visited_edge_count : Nat
  truncated : Bool
  max_nodes : Option Int
  allowed_types : List String
  direction : String
  edge_trace : List TraceEntry
deriving Repr

/-- `expand_closure_from_edges` from `context_ops.py`. -/
def expand_closure_from_edges (seed_ids : List String) (edges : List EdgeView)
    (allowed_types : List String) (max_nodes : Option Int := none)
    (direction : String := "out") : ClosureResult :=
  let allowed := (allowed_types.filter (fun t => t ≠ "")).dedup
  let seed_order := ordered_unique seed_ids
  if seed_order = [] ∨ allowed = [] then
    { ordered_ids := seed_order, seed_ids := seed_order, closure_added_ids := [],
      visited_edge_count := 0, truncated := false, max_nodes := max_nodes,
      allowed_types := sortStrings allowed, direction := direction, edge_trace := [] }
  else
    let dir := if direction = "out" ∨ direction = "in" ∨ direction = "both"
      then direction else "out"
    let outA := outAdj allowed edges
    let inA := inAdj allowed edges
    let st0 : ExpSt := { visited := seed_order, q := seed_order, trace := [], truncated := false }
    let fuel := seed_order.length + 2 * edges.length + 1
    let stF := bfsRun dir outA inA max_nodes fuel st0
    let added := (sortStrings stF.visited).filter (fun nid => nid ∉ seed_order)
    let ordered := seed_order ++ added
    { ordered_ids := ordered, seed_ids := seed_order,
      closure_added_ids := ordered.filter (fun nid => nid ∉ seed_order),
      visited_edge_count := stF.trace.length, truncated := stF.truncated,
      max_nodes := max_nodes, allowed_types := sortStrings allowed,
      direction := dir, edge_trace := stF.trace.take 200 }

/-- The six ASCII characters Python's `str.strip()`/`str.split()` treat as
whitespace (their Unicode whitespace is outside this embedding's scope). -/
def isPySpace (c : Char) : Bool :=
  c = ' ' ∨ c = '\t' ∨ c = '\n' ∨ c = '\r' ∨ c = '\x0b' ∨ c = '\x0c'

/-- Drop the longest leading run of characters satisfying `p`. -/
def dropLeading (p : Char → Bool) : List Char → List Char
  | [] => []
  | c :: rest => if p c then dropLeading p rest else c :: rest

/-- Python `text.strip()` (ASCII whitespace). -/
def py_strip (s : String) : String :=
  ⟨(dropLeading isPySpace ((dropLeading isPySpace s.data).reverse)).reverse⟩

/-- `estimate_tokens` from `unfold_planner.py`: strip, then `0` for empty and
`max(1, ceil(len/4))` otherwise (`⌈n/4⌉ = (n+3)/4` on naturals). -/
def estimate_tokens (text : String) : Nat :=
  let t := py_strip text
  if t = "" then 0 else max 1 ((t.length + 3) / 4)

/-- The metadata fields of a record's JSON payload that the compiler reads
(`parent_id`, `role`, `title`).  The source parses `payload_json` ad hoc with
`_jload`; the embedding models the already-parsed dictionary as a typed view
(exactly the replacement spec section 9 prescribes).  A missing key is `none`. -/
structure PayloadView where
  parent_id : Option String := none
  role : Option String := none
  title : Option String := none
deriving DecidableEq, Repr

/-- An active-context record: `id`, `type` (as `rtype`), `text`, `created_at`
(already rendered to the string the source produces via `isoformat`/`str`),
and the parsed payload. -/
structure RecordView where
  id : String
  rtype : String
  text : String
  created_at : String
  payload : PayloadView
deriving DecidableEq, Repr

/-- `by_id[nid]`: the Python dict comprehension keeps the LAST record with a
given (non-empty) id. -/
def recById (records : List RecordView) (nid : String) : Option RecordView :=
  ((records.filter (fun r => r.id != "")).reverse).find? (fun r => r.id == nid)

/-- Python `sep.join(parts)`. -/
def strJoin (sep : String) : List String → String
  | [] => ""
  | x :: xs => xs.foldl (fun acc y => acc ++ sep ++ y) x

/-- One rendered block of the compiled context: the bracket header followed by
the type-specific body (`role=` for Message, `title=` for Fold, bare text
otherwise). -/
def renderBlock (r : RecordView) : String :=
  let nid := r.id
  let rtype := if r.rtype = "" then "Node" else r.rtype
  let text := r.text
  let created_str := r.created_at
  let nid6 : String := ⟨nid.data.take 6⟩
  let head := "[" ++ rtype ++ " " ++ nid6 ++ " @ " ++ created_str ++ "]"
  if rtype = "Message" then
    head ++ " role=" ++ (r.payload.role).getD "?" ++ "
" ++ text
  else if rtype = "Fold" then
    head ++ " title=" ++ (r.payload.title).getD "Fold" ++ "
" ++ text
  else
    head ++ "
" ++ text

/-- The `explain` dict returned by `compile_active_context_records`; the two
maps are kept as key-ordered association lists (Python dicts preserve
insertion order). -/
structure CompileExplain where
  active_input_ids : List String
  active_input_count : Nat
  excluded_parent_ids : List String
  kept_node_ids : List String
  kept_node_count : Nat
  parent_to_children : List (String × List String)
  parent_sources : List (String × List (String × String))
deriving Repr

/-- `ordered_ids` of the compiler: the deduplicated caller order, restricted
to ids present in `records`. -/
def cmpOrderedIds (records : List RecordView) (active_ids : List String) : List String :=
  (ordered_unique active_ids).filter (fun nid => (recById records nid).isSome)

/-- `active_records`: the records of `cmpOrderedIds`, in that order. -/
def cmpActiveRecords (records : List RecordView) (active_ids : List String) : List RecordView :=
  (cmpOrderedIds records active_ids).filterMap (recById records)

/-- The `(parent, child, source)` triples contributed by `payload.parent_id`
of active records (restricted to parents inside the active set). -/
def cmpPayPairs (records : List RecordView) (active_ids : List String) :
    List (String × String × String) :=
  (cmpActiveRecords records active_ids).filterMap (fun r =>
    match r.payload.parent_id with
    | some pid =>
      if pid ≠ "" ∧ pid ∈ cmpOrderedIds records active_ids then
        some (pid, r.id, "payload.parent_id")
      else none
    | none => none)

/-- The `(parent, child, source)` triples contributed by `HAS_PART` edges with
both endpoints active. -/
def cmpEdgePairs (records : List RecordView) (active_ids : List String)
    (edges : List EdgeView) : List (String × String × String) :=
  edges.filterMap (fun e =>
    if e.etype = "HAS_PART" ∧ e.from_id ∈ cmpOrderedIds records active_ids ∧
        e.to_id ∈ cmpOrderedIds records active_ids ∧ e.from_id ≠ "" ∧ e.to_id ≠ "" then
      some (e.from_id, e.to_id, "edge.HAS_PART")
    else none)

/-- All parent→child contributions, payload sources first (they are recorded
first in the source). -/
def cmpAllPairs (records : List RecordView) (active_ids : List String)
    (edges : List EdgeView) : List (String × String × String) :=
  cmpPayPairs records active_ids ++ cmpEdgePairs records active_ids edges

/-- `excluded_parent_ids`: active ids whose child set is non-empty. -/
def cmpExcluded (records : List RecordView) (active_ids : List String)
    (edges : List EdgeView) : List String :=
  (cmpOrderedIds records active_ids).filter
    (fun nid => (cmpAllPairs records active_ids edges).any (fun pr => pr.1 == nid))

/-- `kept_records`: active records whose id is not excluded. -/
def cmpKept (records : List RecordView) (active_ids : List String)
    (edges : List EdgeView) : List RecordView :=
  (cmpActiveRecords records active_ids).filter
    (fun r => r.id ∉ cmpExcluded records active_ids edges)

/-- `compile_active_context_records` from `context_ops.py`.  Parent→child
pairs are tagged with their provenance string exactly as in the source. -/
def compile_active_context_records (records : List RecordView) (active_ids : List String)
    (edges : List EdgeView) : String × CompileExplain :=
  let ordered_ids := cmpOrderedIds records active_ids
  let allPairs := cmpAllPairs records active_ids edges
  let kept_records := cmpKept records active_ids edges
  let parts := kept_records.map renderBlock
  let keys := ordered_unique (allPairs.map (fun pr => pr.1))
  (py_strip (strJoin "\n\n" parts),
   { active_input_ids := ordered_ids
     active_input_count := ordered_ids.length
     excluded_parent_ids := cmpExcluded records active_ids edges
     kept_node_ids := kept_records.map (fun r => r.id)
     kept_node_count := kept_records.length
     parent_to_children := keys.map (fun k =>
       (k, sortStrings (((allPairs.filter (fun pr => pr.1 == k)).map (fun pr => pr.2.1)).dedup)))
     parent_sources := keys.map (fun k =>
       (k, (allPairs.filter (fun pr => pr.1 == k)).map (fun pr => (pr.2.1, pr.2.2)))) })

/-- The child relation described by C4 (amended to admit self-reference):
an active node `pid` has an active child when some active record's
`payload.parent_id` names `pid`, or some `HAS_PART` edge from `pid` has both
endpoints active.  (Written from the claim's words, to be compared with the
code's exclusion set.) -/
def specHasActiveChild (records : List RecordView) (active_ids : List String)
    (edges : List EdgeView) (pid : String) : Bool :=
  (cmpActiveRecords records active_ids).any
    (fun r => r.payload.parent_id == some pid && pid ∈ cmpOrderedIds records active_ids) ||
    edges.any (fun e => e.etype == "HAS_PART" && e.from_id == pid &&
      e.from_id ∈ cmpOrderedIds records active_ids && e.to_id ∈ cmpOrderedIds records active_ids)

/-- A character matched by `_TOKEN_RE`'s class `[A-Za-z0-9_가-힣]`
(`'가' = U+AC00 = 44032`, `'힣' = U+D7A3 = 55203`), by code point. -/
def isTokChar (c : Char) : Bool :=
  let n := c.toNat
  (97 ≤ n ∧ n ≤ 122) ∨ (65 ≤ n ∧ n ≤ 90) ∨ (48 ≤ n ∧ n ≤ 57) ∨ n = 95 ∨
    (44032 ≤ n ∧ n ≤ 55203)

/-- ASCII lower-casing of one character (Python `str.lower` restricted to the
ASCII range; Hangul has no case). -/
def charLower (c : Char) : Char :=
  if 65 ≤ c.toNat ∧ c.toNat ≤ 90 then Char.ofNat (c.toNat + 32) else c

/-- Python `text.lower()`. -/
def py_lower (s : String) : String :=
  ⟨s.data.map charLower⟩

/-- Split into maximal runs of characters satisfying `p`; `cur` is the
(reversed) run being accumulated. -/
def runsGo (p : Char → Bool) : List Char → List Char → List (List Char)
  | [], cur => if cur.isEmpty then [] else [cur.reverse]
  | c :: rest, cur =>
    if p c then runsGo p rest (c :: cur)
    else if cur.isEmpty then runsGo p rest []
    else cur.reverse :: runsGo p rest []

/-- `_TOKEN_RE.findall(s)`: the maximal runs of token characters of length at
least 2 (the regex `[A-Za-z0-9_가-힣]{2,}` matches each maximal run greedily
and needs at least two characters). -/
def findallTokens (s : String) : List String :=
  ((runsGo isTokChar s.data []).filter (fun r => 2 ≤ r.length)).map (fun r => ⟨r⟩)

/-- `_STOPWORDS` from `unfold_planner.py`. -/
def _STOPWORDS : List String :=
  ["the", "and", "for", "that", "with", "this", "from", "into", "have", "will", "your",
   "있다", "하기", "에서", "그리고", "합니다", "대한", "하는", "해야", "관련", "으로", "했다"]

/-- Worker of `tokenize_query`: drop stopwords and already-seen tokens. -/
def tokQGo (seen : List String) : List String → List String
  | [] => []
  | t :: rest =>
    if t ∈ _STOPWORDS ∨ t ∈ seen then tokQGo seen rest
    else t :: tokQGo (t :: seen) rest

/-- `tokenize_query` from `unfold_planner.py`. -/
def tokenize_query (text : String) : List String :=
  tokQGo [] (findallTokens (py_lower text))

/-- Python `needle in hay` on strings (substring containment). -/
def containsSub (needle : List Char) : List Char → Bool
  | [] => needle.isEmpty
  | c :: t => needle.isPrefixOf (c :: t) || containsSub needle t

/-- Python `hay.find(needle)`: `some index` of the first occurrence, `none`
standing for `-1`. -/
def findSubIdx (needle : List Char) : List Char → Option Nat
  | [] => if needle.isEmpty then some 0 else none
  | c :: t =>
    if needle.isPrefixOf (c :: t) then some 0
    else (findSubIdx needle t).map (fun n => n + 1)

/-- Python float values, modelled as exact (not necessarily reduced)
fractions `num/den` with `den > 0` at every construction site; comparisons
cross-multiply.  The planner's floats hold ratios of small integers;
IEEE-754 rounding is not modelled — every claim below is independent of it.
(A bare `ℚ` is not used because its kernel arithmetic does not reduce.) -/
structure PyFloat where
  num : Int
  den : Nat
deriving Repr

/-- Exact fraction addition. -/
def PyFloat.add (a b : PyFloat) : PyFloat :=
  ⟨a.num * b.den + b.num * a.den, a.den * b.den⟩

/-- Exact fraction multiplication. -/
def PyFloat.mul (a b : PyFloat) : PyFloat :=
  ⟨a.num * b.num, a.den * b.den⟩

/-- Division by a positive natural. -/
def PyFloat.divNat (a : PyFloat) (k : Nat) : PyFloat :=
  ⟨a.num, a.den * k⟩

/-- Value-level `<` (valid for positive denominators). -/
def PyFloat.ltB (a b : PyFloat) : Bool :=
  a.num * b.den < b.num * a.den

/-- Value-level `≤` (valid for positive denominators). -/
def PyFloat.leB (a b : PyFloat) : Bool :=
  a.num * b.den ≤ b.num * a.den

/-- Value-level `=` (valid for positive denominators). -/
def PyFloat.eqB (a b : PyFloat) : Bool :=
  a.num * b.den == b.num * a.den

/-- Python `min(a, b)`. -/
def PyFloat.pymin (a b : PyFloat) : PyFloat :=
  if a.leB b then a else b

/-- Python `round(x, ndigits)` as exact half-up rounding (`round` on CPython
floats is half-even on the binary value; the difference needs an exact
binary tie, which none of the claims depend on). -/
def PyFloat.roundTo (ndigits : Nat) (a : PyFloat) : PyFloat :=
  let scaled := (a.mul ⟨(10 : Int) ^ ndigits, 1⟩).add ⟨1, 2⟩
  ⟨scaled.num.fdiv (scaled.den : Int), (10 : Nat) ^ ndigits⟩

/-- `score_text` from `unfold_planner.py`: positional weight `3/(idx+1)`,
frequency weight `min(2.5, 0.6·tf)`, `0.5` early-substring bonus, rounded to
4 digits. -/
def score_text (query_terms : List String) (text : String) : PyFloat :=
  let body := py_lower text
  if body = "" then ⟨0, 1⟩
  else
    let toks := findallTokens body
    let raw := query_terms.enum.foldl (fun score p =>
      let idx := p.1
      let term := p.2
      let tf := toks.count term
      if tf = 0 then score
      else
        let score := score.add ⟨3, idx + 1⟩
        let score := score.add (PyFloat.pymin ⟨5, 2⟩ (PyFloat.mul ⟨3, 5⟩ ⟨(tf : Int), 1⟩))
        if containsSub term.data (body.data.take 240) then score.add ⟨1, 2⟩ else score)
      ⟨0, 1⟩
    PyFloat.roundTo 4 raw

/-- A node record as consumed by the planner (`id`, `type` as `ntype`,
`text`). -/
structure NodeRec where
  id : String
  ntype : String
  text : String
deriving DecidableEq, Repr

/-- `node_by_id[nid]` (the Python dict comprehension keeps the last record
with a non-empty id). -/
def node_by_id (nodes : List NodeRec) (nid : String) : Option NodeRec :=
  ((nodes.filter (fun n => n.id != "")).reverse).find? (fun n => n.id == nid)

/-- `node_by_id[nid].get("text") or ""` (the planner only looks up ids it has
already checked to be present). -/
def nodeTextOf (nodes : List NodeRec) (nid : String) : String :=
  match node_by_id nodes nid with
  | some n => n.text
  | none => ""

/-- The first query term found in `low`, scanned in order (`pos` stays `-1`
i.e. `none` when no term occurs). -/
def firstFound (terms : List String) (low : String) : Option Nat :=
  match terms with
  | [] => none
  | t :: rest =>
    match findSubIdx t.data low.data with
    | some p => some p
    | none => firstFound rest low

/-- `_node_preview` from `unfold_planner.py` (`max_chars = 220`). -/
def _node_preview (node : NodeRec) (query : String) : String :=
  let max_chars : Nat := 220
  let text := py_strip node.text
  if text = "" then ""
  else
    let q_terms := tokenize_query query
    let low := py_lower text
    match firstFound q_terms low with
    | none =>
      let snippet : String := ⟨text.data.take max_chars⟩
      if max_chars < text.data.length then snippet ++ "..." else snippet
    | some p =>
      let start := p - max_chars / 3
      let e := min text.data.length (start + max_chars)
      let snippet := py_strip ⟨(text.data.take e).drop start⟩
      let snippet := if 0 < start then "..." ++ snippet else snippet
      if e < text.data.length then snippet ++ "..." else snippet

/-- One scored unfold candidate. -/
structure Candidate where
  seed_id : String
  seed_type : String
  score : PyFloat
  preview : String
  closure_ids : List String
  closure_added_ids : List String
  closure_size : Nat
  marginal_cost_tokens : Nat
  marginal_ratio : PyFloat
  closure_explain : ClosureResult
deriving Repr

/-- The sort key `(marginal_ratio, score, -marginal_cost_tokens)`. -/
def candKey (c : Candidate) : PyFloat × PyFloat × Int :=
  (c.marginal_ratio, c.score, -(c.marginal_cost_tokens : Int))

/-- Non-strict lexicographic value order on sort keys. -/
def tripleLe (x y : PyFloat × PyFloat × Int) : Prop :=
  (x.1.ltB y.1 || (x.1.eqB y.1 &&
    (x.2.1.ltB y.2.1 || (x.2.1.eqB y.2.1 && decide (x.2.2 ≤ y.2.2))))) = true

instance : DecidableRel tripleLe := fun x y =>
  inferInstanceAs (Decidable (_ = true))

/-- `a` may precede `b` in the descending candidate sort
(`sort(key=..., reverse=True)`); non-strict so that insertion sort is stable
exactly like Python's stable descending sort. -/
def candGe (a b : Candidate) : Prop :=
  tripleLe (candKey b) (candKey a)

instance : DecidableRel candGe := fun a b =>
  inferInstanceAs (Decidable (tripleLe _ _))

/-- The descending stable sort of candidates. -/
def sortCandidates (l : List Candidate) : List Candidate :=
  List.insertionSort candGe l

/-- The unscored-candidate construction loop of `plan_unfold_candidates`
(the `scored` list before sorting). -/
def planScored (query : String) (nodes : List NodeRec) (edges : List EdgeView)
    (active_ids : List String) (closure_edge_types : List String)
    (closure_direction : String) (max_closure_nodes : Option Int) : List Candidate :=
  let query_terms := tokenize_query query
  let active_set := ordered_unique active_ids
  nodes.filterMap (fun node =>
    let nid := node.id
    if nid = "" ∨ nid ∈ active_set then none
    else
      let score := score_text query_terms node.text
      if score.leB ⟨0, 1⟩ then none
      else
        let closure := expand_closure_from_edges [nid] edges closure_edge_types
          max_closure_nodes closure_direction
        let ordered_ids := closure.ordered_ids.filter (fun x => (node_by_id nodes x).isSome)
        let marginal_ids := ordered_ids.filter (fun x => x ∉ active_set)
        let marginal_cost := (marginal_ids.map (fun x => estimate_tokens (nodeTextOf nodes x))).sum
        some {
          seed_id := nid
          seed_type := if node.ntype = "" then "Node" else node.ntype
          score := score
          preview := _node_preview node query
          closure_ids := ordered_ids
          closure_added_ids := ordered_ids.filter (fun x => x ≠ nid)
          closure_size := ordered_ids.length
          marginal_cost_tokens := marginal_cost
          marginal_ratio := PyFloat.roundTo 6 (score.divNat (max 1 marginal_cost))
          closure_explain := closure })

/-- The greedy budgeted selection loop of `plan_unfold_candidates`: state is
`(selected_seed_ids, selected_ids, selected_cost)`; a too-expensive candidate
is skipped (never aborts the scan), and the loop stops once `max(1, top_k)`
seeds are accepted. -/
def greedySelect (nodes : List NodeRec) (budget : Int) (top_k : Int) :
    List Candidate → List String → List String → Nat → List String × List String × Nat
  | [], seeds, sel, cost => (seeds, sel, cost)
  | cand :: rest, seeds, sel, cost =>
    let add_ids := cand.closure_ids.filter (fun nid => nid ∉ sel)
    let add_cost := (add_ids.map (fun nid => estimate_tokens (nodeTextOf nodes nid))).sum
    if max 1 budget < (cost + add_cost : Int) then
      greedySelect nodes budget top_k rest seeds sel cost
    else
      let seeds1 := seeds ++ [cand.seed_id]
      let sel1 := sel ++ add_ids
      let cost1 := cost + add_cost
      if max 1 top_k ≤ (seeds1.length : Int) then (seeds1, sel1, cost1)
      else greedySelect nodes budget top_k rest seeds1 sel1 cost1

/-- Return value of `plan_unfold_candidates`. -/
structure PlanResult where
  query : String
  query_terms : List String
  budget_tokens : Int
  closure_edge_types : List String
  closure_direction : String
  max_closure_nodes : Option Int
  candidates : List Candidate
  recommended_seed_ids : List String
  recommended_added_ids : List String
  recommended_added_count : Nat
  recommended_cost_tokens : Nat
deriving Repr

/-- `plan_unfold_candidates` from `unfold_planner.py`. -/
def plan_unfold_candidates (query : String) (nodes : List NodeRec) (edges : List EdgeView)
    (active_ids : List String) (top_k : Int := 8) (max_candidates : Int := 16)
    (budget_tokens : Int := 1200)
    (closure_edge_types : List String := ["DEPENDS", "HAS_PART", "SPLIT_FROM", "REFERENCES"])
    (closure_direction : String := "both") (max_closure_nodes : Option Int := some 12) :
    PlanResult :=
  let query_terms := tokenize_query query
  let active_set := ordered_unique active_ids
  let scored := (sortCandidates (planScored query nodes edges active_ids closure_edge_types
    closure_direction max_closure_nodes)).take (max 1 max_candidates).toNat
  let sel := greedySelect nodes budget_tokens top_k scored [] active_set 0
  { query := query
    query_terms := query_terms
    budget_tokens := budget_tokens
    closure_edge_types := closure_edge_types
    closure_direction := closure_direction
    max_closure_nodes := max_closure_nodes
    candidates := scored
    recommended_seed_ids := sel.1
    recommended_added_ids := sel.2.1.filter (fun nid => nid ∉ active_set)
    recommended_added_count := (sel.2.1.filter (fun nid => nid ∉ active_set)).length
    recommended_cost_tokens := sel.2.2 }

/-- One entry of the `steps` explain trail of `apply_unfold_seed_selection`. -/
structure ApplyStep where
  seed_id : String
  candidate_add_ids : List String
  candidate_cost_tokens : Nat
  accepted : Bool
  closure : ClosureResult
deriving Repr

/-- Loop state of `apply_unfold_seed_selection`: the growing `active` list,
the `selected` set, the running `used` total and the recorded steps. -/
structure ApplySt where
  active : List String
  selected : List String
  used : Nat
  steps : List ApplyStep
deriving Repr

/-- The body of the per-seed loop of `apply_unfold_seed_selection`: unknown
seeds are skipped without a step; otherwise the closure's candidate ids and
cost are recorded, and committed only when they fit the remaining budget. -/
def applySeedStep (nodes : List NodeRec) (edges : List EdgeView)
    (closure_edge_types : List String) (closure_direction : String)
    (max_closure_nodes : Option Int) (budget : Int) (st : ApplySt) (seed_id : String) :
    ApplySt :=
  if (node_by_id nodes seed_id).isNone then st
  else
    let closure := expand_closure_from_edges [seed_id] edges closure_edge_types
      max_closure_nodes closure_direction
    let add_ids := closure.ordered_ids.filter
      (fun nid => (node_by_id nodes nid).isSome && nid ∉ st.selected)
    let add_cost := (add_ids.map (fun nid => estimate_tokens (nodeTextOf nodes nid))).sum
    let accepted := decide ((st.used + add_cost : Int) ≤ max 1 budget)
    let steps1 := st.steps ++ [⟨seed_id, add_ids, add_cost, accepted, closure⟩]
    if accepted then
      { active := st.active ++ add_ids, selected := st.selected ++ add_ids,
        used := st.used + add_cost, steps := steps1 }
    else { st with steps := steps1 }

/-- Return value of `apply_unfold_seed_selection`. -/
structure ApplyResult where
  next_active_ids : List String
  added_ids : List String
  used_tokens : Nat
  budget_tokens : Int
  closure_edge_types : List String
  closure_direction : String
  max_closure_nodes : Option Int
  steps : List ApplyStep
deriving Repr

/-- `apply_unfold_seed_selection` from `unfold_planner.py`. -/
def apply_unfold_seed_selection (seed_node_ids : List String) (nodes : List NodeRec)
    (edges : List EdgeView) (active_ids : List String) (budget_tokens : Int := 1200)
    (closure_edge_types : List String := ["DEPENDS", "HAS_PART", "SPLIT_FROM", "REFERENCES"])
    (closure_direction : String := "both") (max_closure_nodes : Option Int := some 12) :
    ApplyResult :=
  let active := ordered_unique active_ids
  let stF := (ordered_unique seed_node_ids).foldl
    (applySeedStep nodes edges closure_edge_types closure_direction max_closure_nodes
      budget_tokens)
    ⟨active, active, 0, []⟩
  { next_active_ids := ordered_unique stF.active
    added_ids := stF.active.filter (fun nid => nid ∉ active)
    used_tokens := stF.used
    budget_tokens := budget_tokens
    closure_edge_types := closure_edge_types
    closure_direction := closure_direction
    max_closure_nodes := max_closure_nodes
    steps := stF.steps }

/-- `EMBED_DIM` from `services/vector_index.py` (`GOC_EMBED_DIM`, default
configuration value 1536). -/
def EMBED_DIM : Nat := 1536

/-- `_validate_dim` from `services/embedding.py`: empty vectors pass through,
a non-empty vector whose length disagrees with the configured dimension
raises `ValueError` (modelled as `Except.error`). -/
def _validate_dim (vec : List PyFloat) (source : String) : Except String (List PyFloat) :=
  if vec.isEmpty then .ok []
  else if vec.length ≠ EMBED_DIM then
    .error (source ++ ": embedding dim mismatch")
  else .ok vec

/-- `_extract_valid_vec` from `services/embedding.py`.  The stored embedding
row is modelled as its parsed JSON vector: `none` covers a missing row and a
missing/empty `embedding_json`, `some []` covers `"[]"`/empty parses. -/
def _extract_valid_vec (embedding : Option (List PyFloat)) (node_id : String) :
    Except String (Option (List PyFloat)) :=
  match embedding with
  | none => .ok none
  | some ej =>
    if ej.isEmpty then .ok none
    else
      match _validate_dim ej ("node embedding " ++ node_id) with
      | .error e => .error e
      | .ok _ => .ok (some ej)

/-- The `try/except ValueError` around `_extract_valid_vec` in
`ensure_node_embedding`/`ensure_nodes_embeddings`: a raising extraction
becomes `None`, so a wrong-dimension stored vector is silently re-embedded,
never propagated. -/
def ensureExistingVec (embedding : Option (List PyFloat)) (node_id : String) :
    Option (List PyFloat) :=
  match _extract_valid_vec embedding node_id with
  | .ok v => v
  | .error _ => none

/-- A node as consumed by the hierarchy service: `id`, `type` (as `ntype`),
`text`, `created_at` (already rendered to the isoformat string
`_created_key` produces), and the payload `name` field that
`_snippet_for_node` reads for Resource nodes. -/
structure HNode where
  id : String
  ntype : String
  text : String
  created_at : String
  payload_name : Option String
deriving DecidableEq, Repr

/-- Sum of squares of a vector.  It stands in for the Euclidean norm: for a
positive threshold `t`, `‖v‖ > t ↔ normSq v > t²`, and `np.linalg.norm` is
the only irrational step of `_vector_for_node`. -/
def normSq (v : List PyFloat) : PyFloat :=
  v.foldl (fun acc x => acc.add (x.mul x)) ⟨0, 1⟩

/-- `(1e-9)²` as an exact fraction. -/
def normEps2 : PyFloat := ⟨1, 10 ^ 18⟩

/-- `vec[idx] += x`. -/
def listAddAt (v : List PyFloat) (i : Nat) (x : PyFloat) : List PyFloat :=
  v.set i ((v.getD i ⟨0, 1⟩).add x)

/-- The deterministic-in-`h` lexical fallback of `_vector_for_node`: hash
every lowercased whitespace token into a bucket with a parity sign, then
drop near-zero vectors.  `h` models Python's process-randomized `hash` on
strings (spec section 9 flags the nondeterminism; every claim quantifies
over `h`).  The returned vector is unnormalized — the source divides by the
Euclidean norm, a positive scalar irrelevant to every claim below. -/
def vectorFallback (node : HNode) (h : String → Int) : Option (List PyFloat) :=
  let txt := py_strip node.text
  if txt = "" then none
  else
    let toks := (runsGo (fun c => ! isPySpace c) (py_lower txt).data []).map
      (fun r => (⟨r⟩ : String))
    let vec := toks.foldl (fun v tok =>
      let hv := h tok
      let idx := hv.natAbs % EMBED_DIM
      let sign : PyFloat := if hv % 2 ≠ 0 then ⟨-1, 1⟩ else ⟨1, 1⟩
      listAddAt v idx sign) (List.replicate EMBED_DIM ⟨0, 1⟩)
    if (normSq vec).leB normEps2 then none else some vec

/-- `_vector_for_node` from `services/hierarchy.py`: use the stored embedding
when it has the configured dimension and a non-negligible norm, otherwise
fall through to the lexical fallback (the source never raises here). -/
def _vector_for_node (node : HNode) (emb : Option (List PyFloat)) (h : String → Int) :
    Option (List PyFloat) :=
  match emb with
  | some arr =>
    if arr.length = EMBED_DIM ∧ normEps2.ltB (normSq arr) then some arr
    else vectorFallback node h
  | none => vectorFallback node h

/-- `a - b` on exact fractions. -/
def PyFloat.sub (a b : PyFloat) : PyFloat :=
  a.add ⟨-b.num, b.den⟩

/-- `abs(a)` (valid for positive denominators). -/
def PyFloat.pyabs (a : PyFloat) : PyFloat :=
  ⟨(a.num.natAbs : Int), a.den⟩

/-- Python `min(strings or [""])`: the first minimal element. -/
def minStr (l : List String) : String :=
  match l with
  | [] => ""
  | x :: xs => xs.foldl (fun acc y => if strLt y acc then y else acc) x

/-- Python `s.startswith(pre)`. -/
def strStartsWith (pre s : String) : Bool :=
  pre.data.isPrefixOf s.data

/-- Strict lexicographic order on `(String, String)` key pairs. -/
def pairLtB (a b : String × String) : Bool :=
  strLt a.1 b.1 || (a.1 == b.1 && strLt a.2 b.2)

/-- An item handled by the hierarchy clusterer, i.e. an element of the lists
that `_apply_structural_grouping` produces and `_build_recursive_cluster`
consumes: a leaf (`_make_leaf_item`) or a structural group
(`_make_group_item`).  Group items only ever hold leaf children at every
call site of the source, so their children are typed as `(node, vector)`
pairs.  `Vec` is the abstract vector type: `float32` vector arithmetic
(cosine, mean, allclose) enters the clusterer only through oracles over
which every claim quantifies. -/
inductive HItem (Vec : Type) where
  | leaf (node : HNode) (vec : Option Vec)
  | group (gid label kind : String) (children : List (HNode × Option Vec))

instance {Vec : Type} : Inhabited (HItem Vec) :=
  ⟨.leaf ⟨"", "", "", "", none⟩ none⟩

/-- `item["leaf_node_ids"]`: `[node.id]` for a leaf, the concatenation of the
children's `[id]`s for a group (as computed by `_make_group_item`). -/
def HItem.leafIds {Vec : Type} : HItem Vec → List String
  | .leaf n _ => [n.id]
  | .group _ _ _ children => children.map (fun c => c.1.id)

/-- `item["id"]`. -/
def HItem.itemId {Vec : Type} : HItem Vec → String
  | .leaf n _ => n.id
  | .group gid _ _ _ => gid

/-- `item["kind"]`. -/
def HItem.kindOf {Vec : Type} : HItem Vec → String
  | .leaf _ _ => "leaf"
  | .group _ _ kind _ => kind

/-- `item["created_at"]`: the node's key for a leaf, the minimum of the
children's keys (or `""`) for a group. -/
def HItem.createdAt {Vec : Type} : HItem Vec → String
  | .leaf n _ => n.created_at
  | .group _ _ _ children => minStr (children.map (fun c => c.1.created_at))

/-- `_node_sort_key(item) = (created_at or "", id or "")`. -/
def HItem.sortKey {Vec : Type} (it : HItem Vec) : String × String :=
  (it.createdAt, it.itemId)

/-- `item["centroid"]`: the vector for a leaf; `_mean_vec` of the children's
non-`None` vectors for a group (`None` when there are none). -/
def HItem.centroid {Vec : Type} (meanV : List Vec → Option Vec) : HItem Vec → Option Vec
  | .leaf _ v => v
  | .group _ _ _ children =>
    let vs := children.filterMap (fun c => c.2)
    if vs.isEmpty then none else meanV vs

/-- `_cos` on optional vectors: `-1.0` when either side is `None`. -/
def cosO {Vec : Type} (cosV : Vec → Vec → PyFloat) : Option Vec → Option Vec → PyFloat
  | some a, some b => cosV a b
  | _, _ => ⟨-1, 1⟩

/-- `_mean_vec` (the empty case is `None`; `meanV` models the float32 mean
of a non-empty vector list, `None` standing for a near-zero mean). -/
def meanVec {Vec : Type} (meanV : List Vec → Option Vec) (l : List Vec) : Option Vec :=
  if l.isEmpty then none else meanV l

/-- The item order `sorted(items, key=_node_sort_key)` (stable). -/
def itemLe {Vec : Type} (a b : HItem Vec) : Prop :=
  pairLe a.sortKey b.sortKey

instance {Vec : Type} : DecidableRel (@itemLe Vec) := fun a b =>
  inferInstanceAs (Decidable (pairLe _ _))

/-- `sorted(items, key=_node_sort_key)`. -/
def sortItems {Vec : Type} (l : List (HItem Vec)) : List (HItem Vec) :=
  List.insertionSort itemLe l

/-- `nodes_by_id[nid]` of the hierarchy service (last record wins). -/
def hNodeById (nodes : List HNode) (nid : String) : Option HNode :=
  nodes.reverse.find? (fun n => n.id == nid)

/-- `_compact(text, max_len=56)`. -/
def _compact (text : String) : String :=
  let s := strJoin " " ((runsGo (fun c => ! isPySpace c) text.data []).map
    (fun r => (⟨r⟩ : String)))
  if s.length ≤ 56 then s else (⟨s.data.take 53⟩ : String) ++ "..."

/-- `_snippet_for_node` from `services/hierarchy.py`. -/
def _snippet_for_node (node : Option HNode) : String :=
  match node with
  | none => ""
  | some n =>
    let base := _compact (if n.text ≠ "" then n.text
      else if n.ntype ≠ "" then n.ntype else n.id)
    if n.ntype = "Resource" then
      match n.payload_name with
      | some name => if py_strip name ≠ "" then py_strip name else base
      | none => base
    else base

/-- `1e-9` as an exact fraction (the label tie-break threshold). -/
def eps9 : PyFloat := ⟨1, 10 ^ 9⟩

/-- `_cluster_label` from `services/hierarchy.py`: pick the representative
leaf (highest cosine to the items' centroid, near-ties broken toward the
smaller id), fall back to a leaf count. -/
def _cluster_label {Vec : Type} (cosV : Vec → Vec → PyFloat)
    (meanV : List Vec → Option Vec) (items : List (HItem Vec)) (nodes : List HNode)
    (pfx : String) : String :=
  let vecs := items.filterMap (fun it => it.centroid meanV)
  let centroid := meanVec meanV vecs
  let rep := items.foldl (fun (acc : Option String × PyFloat) it =>
    it.leafIds.foldl (fun (acc : Option String × PyFloat) nid =>
      let v : Option Vec :=
        match it with
        | .leaf n vv => if n.id == nid then vv else none
        | .group _ _ _ _ => none
      let veff : Option Vec :=
        match v with
        | some vv => some vv
        | none => it.centroid meanV
      let score := cosO cosV centroid veff
      let better := acc.2.ltB score
      let tie := ((score.sub acc.2).pyabs.ltB eps9) &&
        (match acc.1 with
         | some r => r != "" && strLt nid r
         | none => false)
      if better || tie then (some nid, score) else acc) acc) (none, ⟨-10, 1⟩)
  match rep.1 with
  | some rep_leaf =>
    if rep_leaf != "" && (hNodeById nodes rep_leaf).isSome then
      pfx ++ " · " ++ _snippet_for_node (hNodeById nodes rep_leaf)
    else
      pfx ++ " (" ++ toString ((items.map (fun it => it.leafIds.length)).sum) ++ ")"
  | none =>
    pfx ++ " (" ++ toString ((items.map (fun it => it.leafIds.length)).sum) ++ ")"

/-- The key `(1 - cos(v, centroid), sort_key)` used by the farthest-point
searches of `_partition_bisect`. -/
def bisKey {Vec : Type} (cosV : Vec → Vec → PyFloat) (meanV : List Vec → Option Vec)
    (av : Option Vec) (it : HItem Vec) : PyFloat × (String × String) :=
  ((⟨1, 1⟩ : PyFloat).sub (cosO cosV av (it.centroid meanV)), it.sortKey)

/-- Strict `<` on those keys. -/
def bkLt (x y : PyFloat × (String × String)) : Bool :=
  x.1.ltB y.1 || (x.1.eqB y.1 && pairLtB x.2 y.2)

/-- Python `max(xs, key=...)`: the first maximal element. -/
def maxByKey {Vec : Type} (key : HItem Vec → PyFloat × (String × String)) :
    List (HItem Vec) → Option (HItem Vec)
  | [] => none
  | x :: xs => some (xs.foldl (fun best y => if bkLt (key best) (key y) then y else best) x)

/-- `item["label"]` as stored by `_make_leaf_item` / `_make_group_item`.
Only the group case is ever read downstream (the terminal-branch override). -/
def HItem.labelOf {Vec : Type} : HItem Vec → String
  | .leaf n _ => n.ntype ++ ":" ++ _snippet_for_node (some n)
  | .group _ label _ _ => label

/-- The body of the `for it in items` partition loop of `_partition_bisect`:
items go to the side they are more similar to (`b` left, `c` right), sort-key
ties go left iff at most the seed key, items without a vector go to the
currently smaller side. -/
def bisStep {Vec : Type} (cosV : Vec → Vec → PyFloat) (meanV : List Vec → Option Vec)
    (bv cv : Vec) (saKey : String × String)
    (lr : List (HItem Vec) × List (HItem Vec)) (it : HItem Vec) :
    List (HItem Vec) × List (HItem Vec) :=
  match it.centroid meanV with
  | none =>
    if lr.1.length ≤ lr.2.length then (lr.1 ++ [it], lr.2) else (lr.1, lr.2 ++ [it])
  | some v =>
    let sb := cosV v bv
    let sc := cosV v cv
    if sc.ltB sb then (lr.1 ++ [it], lr.2)
    else if sb.ltB sc then (lr.1, lr.2 ++ [it])
    else if pairLe it.sortKey saKey then (lr.1 ++ [it], lr.2)
    else (lr.1, lr.2 ++ [it])

/-- `_partition_bisect` from `services/hierarchy.py`.  Notes kept from the
source: `without_vec` is computed there but never used; the
`far_b is seed_a` identity check can never fire because `far_b` is drawn
from `ordered[1:]` (non-empty once `len(with_vec) >= 2`) and the item dicts
are never aliased, so it is omitted. -/
def _partition_bisect {Vec : Type} (cosV : Vec → Vec → PyFloat)
    (meanV : List Vec → Option Vec) (allcloseV : Vec → Vec → Bool)
    (items : List (HItem Vec)) : Option (List (HItem Vec) × List (HItem Vec)) :=
  if items.length < 4 then none
  else
    let with_vec := items.filter (fun it => (it.centroid meanV).isSome)
    if with_vec.length < 2 then
      let mid := items.length / 2
      if mid = 0 ∨ items.length ≤ mid then none
      else some (items.take mid, items.drop mid)
    else
      let ordered := sortItems with_vec
      let seed_a := ordered.headD default
      let a_vec := seed_a.centroid meanV
      let tail := if (ordered.drop 1).isEmpty then ordered else ordered.drop 1
      let far_b := (maxByKey (bisKey cosV meanV a_vec) tail).getD default
      let b_vec := far_b.centroid meanV
      let far_c := (maxByKey (bisKey cosV meanV b_vec) ordered).getD default
      let c_vec := far_c.centroid meanV
      match b_vec, c_vec with
      | some bv, some cv =>
        if allcloseV bv cv then
          let mid := items.length / 2
          if 0 < mid ∧ mid < items.length then
            some ((sortItems items).take mid, (sortItems items).drop mid)
          else none
        else
          let lr := items.foldl (bisStep cosV meanV bv cv seed_a.sortKey) ([], [])
          let lr2 : Option (List (HItem Vec) × List (HItem Vec)) :=
            if lr.1.isEmpty ∨ lr.2.isEmpty then
              let ordered_all := sortItems items
              let mid := ordered_all.length / 2
              if mid = 0 ∨ ordered_all.length ≤ mid then none
              else some (ordered_all.take mid, ordered_all.drop mid)
            else some lr
          match lr2 with
          | none => none
          | some (l, r) => some (sortItems l, sortItems r)
      | _, _ => none

/-- A node of the virtual hierarchy tree (the dicts built by
`_build_recursive_cluster`): id, kind, label, children, `leaf_node_ids`,
`node_id` / `node_type` (leaf dicts only), size. -/
inductive HTree where
  | node (tid kind label : String) (children : List HTree)
      (leaf_node_ids : List String) (node_id : Option String)
      (node_type : Option String) (size : Nat)

def HTree.tid : HTree → String
  | .node i _ _ _ _ _ _ _ => i

def HTree.kindOf : HTree → String
  | .node _ k _ _ _ _ _ _ => k

def HTree.labelOf : HTree → String
  | .node _ _ l _ _ _ _ _ => l

def HTree.childrenOf : HTree → List HTree
  | .node _ _ _ c _ _ _ _ => c

def HTree.getLeafIds : HTree → List String
  | .node _ _ _ _ lids _ _ _ => lids

def HTree.nodeIdOf : HTree → Option String
  | .node _ _ _ _ _ nid _ _ => nid

def HTree.getSize : HTree → Nat
  | .node _ _ _ _ _ _ _ s => s

/-- The leaf dict built inline in the terminal branch of
`_build_recursive_cluster` (label `_snippet_for_node(n) or n.type`). -/
def leafTreeOf (n : HNode) : HTree :=
  let s := _snippet_for_node (some n)
  HTree.node ("leaf:" ++ n.id) "leaf" (if s ≠ "" then s else n.ntype) [] [n.id]
    (some n.id) (some n.ntype) 1

/-- Flat rendering of one item, used only by the out-of-fuel base case. -/
def itemFlat {Vec : Type} : HItem Vec → HTree
  | .leaf n _ => leafTreeOf n
  | .group gid label kind gch =>
    HTree.node gid kind label (gch.map (fun c => leafTreeOf c.1))
      (gch.map (fun c => c.1.id)) none none gch.length

/-- Out-of-fuel base case of the fuel-indexed builder: a flat terminal-style
container.  `build_hierarchy_preview` always supplies more than enough fuel,
and every claim proved below holds for every fuel, so nothing rests on this
case being reachable. -/
def fuelBase {Vec : Type} (items : List (HItem Vec)) (depth seq : Nat) : HTree :=
  HTree.node ("cluster:" ++ toString depth ++ ":" ++ toString seq)
    (if depth > 0 then "cluster" else "root") "" (items.map itemFlat)
    (items.flatMap HItem.leafIds) none none
    ((items.map (fun it => it.leafIds.length)).sum)

/-- The child sort key of the bisect branch:
`((children or [{}])[0].label if children else label, id)`. -/
def childKey (c : HTree) : String × String :=
  match c.childrenOf with
  | [] => (c.labelOf, c.tid)
  | h :: _ => (h.labelOf, c.tid)

/-- The per-item body of the terminal-branch `for it in items` loop of
`_build_recursive_cluster`: leaves are rendered inline; structural groups
are rebuilt recursively (`rec`, the builder one fuel down) with the cap
`max(2, max_leaf_size - 1)` and their id/kind/label/leaf ids/size
overridden from the item. -/
def buildStep {Vec : Type} (rec : List (HItem Vec) → Nat → Nat → Nat → HTree × Nat)
    (mls depth : Nat) (acc : List HTree × Nat) (it : HItem Vec) : List HTree × Nat :=
  match it with
  | .leaf n _ => (acc.1 ++ [leafTreeOf n], acc.2)
  | .group gid label kind gch =>
    let r := rec (gch.map (fun c => HItem.leaf c.1 c.2)) (max 2 (mls - 1))
      (depth + 1) acc.2
    let gnode :=
      match r.1 with
      | .node _ _ _ ch _ nid nty _ =>
        HTree.node gid kind label ch (gch.map (fun c => c.1.id)) nid nty
          (gch.map (fun c => c.1.id)).length
    (acc.1 ++ [gnode], r.2)

/-- `_build_recursive_cluster` from `services/hierarchy.py`, fuel-indexed
(Python recursion depth standing in for the fuel; the mutable
`cluster_seq[0]` cell is threaded explicitly and returned).  The
`setdefault("id", ...)` calls after the two recursive calls are no-ops
because the builder always sets `"id"`, so they are omitted. -/
def buildRec {Vec : Type} (cosV : Vec → Vec → PyFloat)
    (meanV : List Vec → Option Vec) (allcloseV : Vec → Vec → Bool)
    (nodes : List HNode) :
    Nat → List (HItem Vec) → Nat → Nat → Nat → HTree × Nat
  | 0, items, _mls, depth, seq => (fuelBase items depth seq, seq)
  | fuel + 1, items0, mls, depth, seq =>
    let total_leaves := (items0.map (fun it => it.leafIds.length)).sum
    let items := sortItems items0
    if total_leaves ≤ mls ∨ items.length ≤ 2 then
      let cs := items.foldl
        (buildStep (fun its m d sq => buildRec cosV meanV allcloseV nodes fuel its m d sq)
          mls depth) ([], seq)
      (HTree.node ("cluster:" ++ toString depth ++ ":" ++ toString cs.2)
        (if depth > 0 then "cluster" else "root")
        (_cluster_label cosV meanV items nodes (if depth > 0 then "Topic" else "Hierarchy"))
        cs.1 (cs.1.flatMap HTree.getLeafIds) none none
        ((cs.1.map HTree.getSize).sum), cs.2)
    else
      match _partition_bisect cosV meanV allcloseV items with
      | none => buildRec cosV meanV allcloseV nodes fuel items 10000 depth seq
      | some (li, ri) =>
        let l := buildRec cosV meanV allcloseV nodes fuel li mls (depth + 1) (seq + 1)
        let r := buildRec cosV meanV allcloseV nodes fuel ri mls (depth + 1) (l.2 + 1)
        let children :=
          if pairLtB (childKey r.1) (childKey l.1) then [r.1, l.1] else [l.1, r.1]
        (HTree.node ("cluster:" ++ toString depth ++ ":" ++ toString r.2)
          (if depth = 0 then "root" else "cluster")
          (_cluster_label cosV meanV items nodes (if depth = 0 then "Hierarchy" else "Topic"))
          children (children.flatMap HTree.getLeafIds) none none
          ((children.map HTree.getSize).sum), r.2)

/-- One `setdefault(key, []).append(cid)` step on an association list kept
in first-insertion order (Python dicts preserve insertion order). -/
def addPair (acc : List ((String × String) × List String)) (key : String × String)
    (cid : String) : List ((String × String) × List String) :=
  if acc.any (fun kv => kv.1 == key) then
    acc.map (fun kv => if kv.1 == key then (kv.1, kv.2 ++ [cid]) else kv)
  else acc ++ [(key, [cid])]

/-- The `group_children_by_parent` dict of `_apply_structural_grouping`:
children inside the selected set whose `HAS_PART`/`FOLDS` parent is outside,
keyed by `(edge type, parent id)`. -/
def group_children_by_parent (node_set : List String) (edges : List EdgeView) :
    List ((String × String) × List String) :=
  edges.foldl
    (fun acc e =>
      if (e.etype == "HAS_PART" || e.etype == "FOLDS") && node_set.contains e.to_id &&
          !(node_set.contains e.from_id) then
        addPair acc (e.etype, e.from_id) e.to_id
      else acc) []

/-- The per-group dedup loop (`seen` updated only on kept ids, membership in
the selected set re-checked). -/
def dedupKeep (node_set : List String) (seen : List String) :
    List String → List String
  | [] => []
  | cid :: rest =>
    if seen.contains cid || !(node_set.contains cid) then
      dedupKeep node_set seen rest
    else cid :: dedupKeep node_set (cid :: seen) rest

/-- Sort order on the grouped-children association list:
`key=lambda kv: (kv[0][0], kv[0][1])`. -/
def gkLe (a b : (String × String) × List String) : Prop :=
  pairLe a.1 b.1

instance : DecidableRel gkLe := fun a b =>
  inferInstanceAs (Decidable (pairLe _ _))

/-- The kept structural groups: sorted by `(etype, parent)`, children
deduplicated, groups with fewer than two distinct children dropped.  Each
kept entry is `((etype, parent_id), uniq)`. -/
def structuralGroups (nodes : List HNode) (edges : List EdgeView) :
    List ((String × String) × List String) :=
  let node_set := nodes.map (fun n => n.id)
  (List.insertionSort gkLe (group_children_by_parent node_set edges)).filterMap
    (fun kv =>
      let uniq := dedupKeep node_set [] kv.2
      if uniq.length < 2 then none else some (kv.1, uniq))

/-- `_created_key(nodes_by_id[nid])` used by the per-group child sort. -/
def createdOf (nodes : List HNode) (nid : String) : String :=
  match hNodeById nodes nid with
  | some n => n.created_at
  | none => ""

/-- Sort order on child ids inside a group: `(_created_key(node), nid)`. -/
def cidLe (nodes : List HNode) (a b : String) : Prop :=
  pairLe (createdOf nodes a, a) (createdOf nodes b, b)

instance {nodes : List HNode} : DecidableRel (cidLe nodes) := fun a b =>
  inferInstanceAs (Decidable (pairLe _ _))

/-- Sort order on nodes: `(_created_key(n), n.id)`. -/
def nodeLe (a b : HNode) : Prop :=
  pairLe (a.created_at, a.id) (b.created_at, b.id)

instance : DecidableRel nodeLe := fun a b =>
  inferInstanceAs (Decidable (pairLe _ _))

/-- `sorted(nodes, key=lambda x: (_created_key(x), x.id))`. -/
def sortNodes (l : List HNode) : List HNode :=
  List.insertionSort nodeLe l

/-- `_apply_structural_grouping` from `services/hierarchy.py`.  `vecOf`
models the `node_vecs` dict computed by the caller from `_vector_for_node`. -/
def _apply_structural_grouping {Vec : Type} (vecOf : String → Option Vec)
    (nodes : List HNode) (edges : List EdgeView) : List (HItem Vec) :=
  let groups := structuralGroups nodes edges
  let consumed := groups.flatMap (fun g => g.2)
  let groupItems := groups.map
    (fun g =>
      let etype := g.1.1
      let parent_id := g.1.2
      let sorted_ids := List.insertionSort (cidLe nodes) g.2
      let children := sorted_ids.filterMap
        (fun cid => (hNodeById nodes cid).map (fun n => (n, vecOf n.id)))
      let p6 : String := ⟨parent_id.data.take 6⟩
      if etype == "FOLDS" then
        HItem.group ("struct:" ++ etype ++ ":" ++ parent_id)
          ("Unfolded Fold · " ++ p6) "structural_fold" children
      else
        HItem.group ("struct:" ++ etype ++ ":" ++ parent_id)
          ("Split Parts · " ++ p6) "structural_split" children)
  let leafItems := (sortNodes nodes).filterMap
    (fun n => if consumed.contains n.id then none else some (HItem.leaf n (vecOf n.id)))
  groupItems ++ leafItems

/-- One row of `leaf_layout`. -/
structure LayoutRow where
  node_id : String
  rank : Nat
  depth : Nat
  cluster_path : List String
deriving DecidableEq

/-- The `dfs` of `_collect_leaf_layout`, returning `(node_id, cluster_path)`
pairs in visit order (`rank` and `depth` are derived afterwards from the
position and the path length).  Fuel-indexed so that the recursion is
structural; the caller supplies fuel exceeding the tree height (the
out-of-fuel case yields no rows and is proven unreachable for the preview's
trees). -/
def dfsRows : Nat → HTree → List String → List (String × List String)
  | 0, _, _ => []
  | fuel + 1, .node tid kind _ children _ node_id _ _, path =>
    if kind == "leaf" then
      match node_id with
      | some nid =>
        if nid == "" then []
        else [(nid, path.filter (fun p => p != "" && !(strStartsWith "leaf:" p)))]
      | none => []
    else
      (children.map (fun ch => dfsRows fuel ch (path ++ [tid]))).flatten

/-- `_collect_leaf_layout`: rows with rank = running index and
depth = cluster-path length. -/
def collectRows (fuel : Nat) (root : HTree) : List LayoutRow :=
  (dfsRows fuel root []).enum.map
    (fun p => ⟨p.2.1, p.1, p.2.2.length, p.2.2⟩)

/-- The result of `build_hierarchy_preview` (the pure part: `nodes` is the
selected node list, `edges` the thread's `HAS_PART`/`FOLDS` edges in
creation order, `vecOf` the `node_vecs` dict).  `node_depths` is kept as a
write-ordered association list (Python dict: the last entry for an id
wins). -/
structure HierResult where
  root : HTree
  leaf_layout : List LayoutRow
  node_depths : List (String × Nat)
  selected_nodes : Nat
  clustered_nodes : Nat
  mls_stat : Nat
  top_groups : Nat

/-- Fuel contribution of one item (enough for the builder never to run dry:
each recursion either consumes an item of the list or unfolds one group). -/
def itemFuel {Vec : Type} : HItem Vec → Nat
  | .leaf _ _ => 1
  | .group _ _ _ gch => gch.length + 1

/-- `build_hierarchy_preview` from `services/hierarchy.py` (pure part,
after the DB reads and `ensure_nodes_embeddings`).  The fuel is generous;
every claim below is proved for all fuels, so its exact value never
matters. -/
def build_hierarchy_preview {Vec : Type} (cosV : Vec → Vec → PyFloat)
    (meanV : List Vec → Option Vec) (allcloseV : Vec → Vec → Bool)
    (vecOf : String → Option Vec) (nodes : List HNode) (edges : List EdgeView)
    (max_leaf_size : Nat) : HierResult :=
  if nodes.isEmpty then
    { root := HTree.node "root" "root" "Hierarchy" [] [] none none 0,
      leaf_layout := [], node_depths := [], selected_nodes := 0,
      clustered_nodes := 0, mls_stat := max_leaf_size, top_groups := 0 }
  else
    let top_items : List (HItem Vec) := _apply_structural_grouping vecOf nodes edges
    let mls := max 2 (if max_leaf_size = 0 then 6 else max_leaf_size)
    let fuel := 2 * ((top_items.map itemFuel).sum) + 8
    let r := buildRec cosV meanV allcloseV nodes fuel top_items mls 0 1
    let root :=
      match r.1 with
      | .node _ _ label ch lids nid nty sz =>
        HTree.node "root" "root" (if label ≠ "" then label else "Hierarchy")
          ch lids nid nty sz
    let rows := collectRows (fuel + 4) root
    { root := root, leaf_layout := rows,
      node_depths := rows.map (fun row => (row.node_id, row.depth)),
      selected_nodes := nodes.length, clustered_nodes := rows.length,
      mls_stat := mls, top_groups := top_items.length }

/-- The leaf-layout id sequence, in rank order. -/
def leafLayoutIds (res : HierResult) : List String :=
  res.leaf_layout.map (fun row => row.node_id)

/-- Concatenation of the items' `leaf_node_ids`. -/
def itemsLeafIds {Vec : Type} (l : List (HItem Vec)) : List String :=
  l.flatMap HItem.leafIds

/-! ## Theorems -/

/-- Invariant carried by the BFS state of `expand_closure_from_edges`:
`visited` is duplicate-free, contains no empty id, contains the queue, and
its size respects the cap as `max(max_nodes, #seeds)`; once `truncated` is
set the cap has been reached. -/
def ExpInv (nseeds : Nat) (max_nodes : Option Int) (st : ExpSt) : Prop :=
  st.visited.Nodup ∧ "" ∉ st.visited ∧ (∀ x ∈ st.q, x ∈ st.visited) ∧
  (∀ m, max_nodes = some m →
    ((st.visited.length : Int) ≤ max m (nseeds : Int)) ∧
    (st.truncated = true → m ≤ (st.visited.length : Int)))

theorem orderedUniqueGo_sublist (seen : List String) (l : List String) :
    List.Sublist (orderedUniqueGo seen l) l := by
  induction l generalizing seen with
  | nil => simp [orderedUniqueGo]
  | cons a t ih =>
    rw [orderedUniqueGo]
    by_cases h : a = "" ∨ a ∈ seen
    · rw [if_pos h]
      exact (ih seen).trans (List.sublist_cons_self a t)
    · rw [if_neg h]
      exact (ih (a :: seen)).cons₂ a

theorem orderedUniqueGo_spec (seen : List String) (l : List String) :
    (orderedUniqueGo seen l).Nodup ∧ "" ∉ orderedUniqueGo seen l ∧
      ∀ x ∈ orderedUniqueGo seen l, x ∉ seen := by
  induction l generalizing seen with
  | nil => simp [orderedUniqueGo]
  | cons a t ih =>
    rw [orderedUniqueGo]
    by_cases h : a = "" ∨ a ∈ seen
    · rw [if_pos h]
      exact ⟨(ih seen).1, (ih seen).2.1, (ih seen).2.2⟩
    · rw [if_neg h]
      push_neg at h
      obtain ⟨hne, hns⟩ := h
      obtain ⟨h1, h2, h3⟩ := ih (a :: seen)
      refine ⟨List.nodup_cons.mpr ⟨fun hmem => ?_, h1⟩, ?_, ?_⟩
      · exact (h3 a hmem) (List.mem_cons_self a seen)
      · simp only [List.mem_cons]
        rintro (rfl | hmem)
        · exact hne rfl
        · exact h2 hmem
      · intro x hx
        simp only [List.mem_cons] at hx
        rcases hx with rfl | hx
        · exact hns
        · intro hxs
          exact h3 x hx (List.mem_cons_of_mem a hxs)

theorem ordered_unique_nodup (l : List String) : (ordered_unique l).Nodup :=
  (orderedUniqueGo_spec [] l).1

theorem ordered_unique_ne_empty (l : List String) : "" ∉ ordered_unique l :=
  (orderedUniqueGo_spec [] l).2.1

theorem offerRecord_visited_pre (st : ExpSt) (src dst etype rel : String) :
    st.visited <+: (offerRecord st src dst etype rel).visited := by
  unfold offerRecord
  dsimp only
  split
  · exact List.prefix_rfl
  · exact ⟨[dst], rfl⟩

theorem offerRecord_truncated (st : ExpSt) (src dst etype rel : String) :
    (offerRecord st src dst etype rel).truncated = st.truncated := by
  unfold offerRecord
  dsimp only
  split <;> rfl

theorem offer_visited_pre (mn : Option Int) (st : ExpSt) (src dst etype rel : String) :
    st.visited <+: (offer mn st src dst etype rel).visited := by
  unfold offer
  cases mn with
  | none => exact offerRecord_visited_pre st src dst etype rel
  | some m =>
    dsimp only
    split
    · exact List.prefix_rfl
    · exact offerRecord_visited_pre st src dst etype rel

theorem offerRecord_inv {n : Nat} {mn : Option Int} {st : ExpSt}
    (h : ExpInv n mn st) (src dst etype rel : String) (hdst : dst ≠ "")
    (hlen : ∀ m, mn = some m → dst ∉ st.visited → (st.visited.length : Int) < m) :
    ExpInv n mn (offerRecord st src dst etype rel) := by
  obtain ⟨hnd, hne, hq, hcap⟩ := h
  unfold offerRecord
  dsimp only
  split
  next hmem => exact ⟨hnd, hne, hq, hcap⟩
  next hmem =>
    refine ⟨?_, ?_, ?_, ?_⟩
    · simpa [List.nodup_append] using ⟨hnd, fun hdd => hmem hdd⟩
    · intro hm
      rcases List.mem_append.mp hm with hm | hm
      · exact hne hm
      · simp only [List.mem_singleton] at hm
        exact hdst hm.symm
    · intro x hx
      rcases List.mem_append.mp hx with hx | hx
      · exact List.mem_append_left _ (hq x hx)
      · exact List.mem_append_right _ hx
    · intro m hme
      have hlt := hlen m hme hmem
      constructor
      · have hb := (hcap m hme).1
        simp only [List.length_append, List.length_singleton]
        push_cast
        have : (st.visited.length : Int) + 1 ≤ m := by omega
        exact le_trans this (le_max_left _ _)
      · intro htr
        have := (hcap m hme).2 htr
        simp only [List.length_append, List.length_singleton]
        push_cast
        omega

theorem offer_inv {n : Nat} {mn : Option Int} {st : ExpSt}
    (h : ExpInv n mn st) (src dst etype rel : String)
    (hdst : dst ≠ "" ∨ dst ∈ st.visited) :
    ExpInv n mn (offer mn st src dst etype rel) := by
  unfold offer
  cases mn with
  | none =>
    rcases hdst with hdst | hdst
    · exact offerRecord_inv h src dst etype rel hdst (by intro m hm; exact absurd hm (by simp))
    · obtain ⟨hnd, hne, hq, hcap⟩ := h
      unfold offerRecord
      rw [if_pos hdst]
      exact ⟨hnd, hne, hq, hcap⟩
  | some m =>
    dsimp only
    split
    next hcond =>
      obtain ⟨hnd, hne, hq, hcap⟩ := h
      refine ⟨hnd, hne, hq, ?_⟩
      intro m' hm'
      injection hm' with hm'
      subst hm'
      exact ⟨(hcap _ rfl).1, fun _ => hcond.1⟩
    next hcond =>
      push_neg at hcond
      rcases Classical.em (dst ∈ st.visited) with hmem | hmem
      · obtain ⟨hnd, hne, hq, hcap⟩ := h
        unfold offerRecord
        rw [if_pos hmem]
        exact ⟨hnd, hne, hq, hcap⟩
      · have hdst' : dst ≠ "" := by
          rcases hdst with hdst | hdst
          · exact hdst
          · exact absurd hdst hmem
        refine offerRecord_inv h src dst etype rel hdst' ?_
        intro m' hm' _
        injection hm' with hm'
        subst hm'
        have hlt : ¬ m ≤ (st.visited.length : Int) := fun hle => hmem (hcond hle)
        omega

theorem offerLoop_pres (f : ExpSt → String × String → ExpSt) (P : ExpSt → Prop) :
    ∀ (l : List (String × String)), (∀ st p, p ∈ l → P st → P (f st p)) →
      ∀ (st : ExpSt), P st → P (offerLoop f st l) := by
  intro l
  induction l with
  | nil => intro _ st h; simpa [offerLoop] using h
  | cons p rest ih =>
    intro hf st h
    rw [offerLoop]
    have h1 : P (f st p) := hf st p (List.mem_cons_self p rest) h
    split
    · exact h1
    · exact ih (fun st' p' hp' => hf st' p' (List.mem_cons_of_mem p hp')) (f st p) h1

theorem mem_sortPairs {p : String × String} {l : List (String × String)} :
    p ∈ sortPairs l ↔ p ∈ l :=
  (List.perm_insertionSort pairLe l).mem_iff

theorem outAdj_fst_ne_empty (allowed : List String) (edges : List EdgeView) (u : String) :
    ∀ p ∈ outAdj allowed edges u, p.1 ≠ "" := by
  intro p hp
  rw [outAdj, mem_sortPairs] at hp
  obtain ⟨e, he, rfl⟩ := List.mem_map.mp hp
  have := (List.mem_filter.mp (List.mem_filter.mp he).1).2
  unfold edgeAllowed at this
  simp only [Bool.and_eq_true, bne_iff_ne, ne_eq] at this
  exact this.2

theorem stepNode_inv {n : Nat} {mn : Option Int} (direction : String)
    (outA inA : String → List (String × String))
    (houtA : ∀ u p, p ∈ outA u → p.1 ≠ "")
    {st : ExpSt} (cur : String) (hst : ExpInv n mn st) (hcur : cur ∈ st.visited) :
    ExpInv n mn (stepNode direction outA inA mn st cur) := by
  unfold stepNode
  dsimp only
  have hout : ∀ st' : ExpSt, ExpInv n mn st' ∧ cur ∈ st'.visited →
      ExpInv n mn (offerLoop (fun s p => offer mn s cur p.1 p.2 "out") st' (outA cur)) ∧
        cur ∈ (offerLoop (fun s p => offer mn s cur p.1 p.2 "out") st' (outA cur)).visited := by
    intro st' h'
    refine offerLoop_pres _ (fun s => ExpInv n mn s ∧ cur ∈ s.visited) (outA cur) ?_ st' h'
    intro s p hp hs
    exact ⟨offer_inv hs.1 cur p.1 p.2 "out" (Or.inl (houtA cur p hp)),
      (offer_visited_pre mn s cur p.1 p.2 "out").subset hs.2⟩
  have hin : ∀ st' : ExpSt, ExpInv n mn st' ∧ cur ∈ st'.visited →
      ExpInv n mn (offerLoop (fun s p => offer mn s p.1 cur p.2 "in") st' (inA cur)) ∧
        cur ∈ (offerLoop (fun s p => offer mn s p.1 cur p.2 "in") st' (inA cur)).visited := by
    intro st' h'
    refine offerLoop_pres _ (fun s => ExpInv n mn s ∧ cur ∈ s.visited) (inA cur) ?_ st' h'
    intro s p _ hs
    exact ⟨offer_inv hs.1 p.1 cur p.2 "in" (Or.inr hs.2),
      (offer_visited_pre mn s p.1 cur p.2 "in").subset hs.2⟩
  split
  · have h1 := hout st ⟨hst, hcur⟩
    split
    · exact h1.1
    · split
      · exact (hin _ h1).1
      · exact h1.1
  · split
    · exact hst
    · split
      · exact (hin st ⟨hst, hcur⟩).1
      · exact hst

theorem offerLoop_visited_pre (f : ExpSt → String × String → ExpSt)
    (hf : ∀ st p, st.visited <+: (f st p).visited) :
    ∀ (l : List (String × String)) (st : ExpSt), st.visited <+: (offerLoop f st l).visited := by
  intro l
  induction l with
  | nil => intro st; exact List.prefix_rfl
  | cons p rest ih =>
    intro st
    rw [offerLoop]
    split
    · exact hf st p
    · exact (hf st p).trans (ih (f st p))

theorem stepNode_visited_pre (direction : String)
    (outA inA : String → List (String × String)) (mn : Option Int)
    (st : ExpSt) (cur : String) :
    st.visited <+: (stepNode direction outA inA mn st cur).visited := by
  unfold stepNode
  dsimp only
  have h1 : ∀ st' : ExpSt, st'.visited <+:
      (offerLoop (fun s p => offer mn s cur p.1 p.2 "out") st' (outA cur)).visited :=
    fun st' => offerLoop_visited_pre _ (fun s p => offer_visited_pre mn s cur p.1 p.2 "out") _ st'
  have h2 : ∀ st' : ExpSt, st'.visited <+:
      (offerLoop (fun s p => offer mn s p.1 cur p.2 "in") st' (inA cur)).visited :=
    fun st' => offerLoop_visited_pre _ (fun s p => offer_visited_pre mn s p.1 cur p.2 "in") _ st'
  split
  · split
    · exact h1 st
    · split
      · exact (h1 st).trans (h2 _)
      · exact h1 st
  · split
    · exact List.prefix_rfl
    · split
      · exact h2 st
      · exact List.prefix_rfl

theorem bfsRun_visited_pre (direction : String)
    (outA inA : String → List (String × String)) (mn : Option Int) :
    ∀ (fuel : Nat) (st : ExpSt), st.visited <+: (bfsRun direction outA inA mn fuel st).visited := by
  intro fuel
  induction fuel with
  | zero => intro st; exact List.prefix_rfl
  | succ fuel ih =>
    intro st
    obtain ⟨v, q, tr, trunc⟩ := st
    rw [bfsRun]
    cases q with
    | nil => exact List.prefix_rfl
    | cons cur rest =>
      dsimp only
      have hstep := stepNode_visited_pre direction outA inA mn ⟨v, rest, tr, trunc⟩ cur
      split
      · exact hstep
      · exact hstep.trans (ih _)

theorem bfsRun_inv {n : Nat} {mn : Option Int} (direction : String)
    (outA inA : String → List (String × String))
    (houtA : ∀ u p, p ∈ outA u → p.1 ≠ "") :
    ∀ (fuel : Nat) (st : ExpSt), ExpInv n mn st →
      ExpInv n mn (bfsRun direction outA inA mn fuel st) := by
  intro fuel
  induction fuel with
  | zero => intro st h; simpa [bfsRun] using h
  | succ fuel ih =>
    intro st h
    obtain ⟨v, q, tr, trunc⟩ := st
    rw [bfsRun]
    cases q with
    | nil => exact h
    | cons cur rest =>
      dsimp only
      have hcur : cur ∈ v := h.2.2.1 cur (List.mem_cons_self _ _)
      have hst' : ExpInv n mn ⟨v, rest, tr, trunc⟩ :=
        ⟨h.1, h.2.1, fun x hx => h.2.2.1 x (List.mem_cons_of_mem _ hx), h.2.2.2⟩
      have hstep := stepNode_inv direction outA inA houtA cur hst' hcur
      split
      · exact hstep
      · exact ih _ hstep

theorem charsLt_trans : ∀ as bs cs : List Char,
    charsLt as bs = true → charsLt bs cs = true → charsLt as cs = true := by
  intro as
  induction as with
  | nil =>
    intro bs cs h1 h2
    cases cs with
    | nil =>
      cases bs with
      | nil => simp [charsLt] at h1
      | cons b bs => simp [charsLt] at h2
    | cons c cs => rfl
  | cons a as ih =>
    intro bs cs h1 h2
    cases bs with
    | nil => simp [charsLt] at h1
    | cons b bs =>
      cases cs with
      | nil => simp [charsLt] at h2
      | cons c cs =>
        rw [charsLt] at h1 h2 ⊢
        by_cases hxy : a.toNat < b.toNat
        · rw [if_pos hxy] at h1
          by_cases hyz : b.toNat < c.toNat
          · rw [if_pos (Nat.lt_trans hxy hyz)]
          · rw [if_neg hyz] at h2
            by_cases hzy : c.toNat < b.toNat
            · rw [if_pos hzy] at h2
              exact absurd h2 (by simp)
            · rw [if_pos (by omega : a.toNat < c.toNat)]
        · rw [if_neg hxy] at h1
          by_cases hyx : b.toNat < a.toNat
          · rw [if_pos hyx] at h1
            exact absurd h1 (by simp)
          · rw [if_neg hyx] at h1
            by_cases hyz : b.toNat < c.toNat
            · rw [if_pos (by omega : a.toNat < c.toNat)]
            · rw [if_neg hyz] at h2
              by_cases hzy : c.toNat < b.toNat
              · rw [if_pos hzy] at h2
                exact absurd h2 (by simp)
              · rw [if_neg hzy] at h2
                rw [if_neg (by omega : ¬ a.toNat < c.toNat),
                  if_neg (by omega : ¬ c.toNat < a.toNat)]
                exact ih bs cs h1 h2

theorem char_toNat_inj {a b : Char} (h : a.toNat = b.toNat) : a = b := by
  cases a
  cases b
  simp only [Char.toNat] at h
  congr 1
  exact UInt32.toNat.inj h

theorem charsLt_eq_of_not : ∀ as bs : List Char,
    charsLt as bs = false → charsLt bs as = false → as = bs := by
  intro as
  induction as with
  | nil =>
    intro bs h1 _
    cases bs with
    | nil => rfl
    | cons b bs => simp [charsLt] at h1
  | cons a as ih =>
    intro bs h1 h2
    cases bs with
    | nil => simp [charsLt] at h2
    | cons b bs =>
      rw [charsLt] at h1 h2
      by_cases hxy : a.toNat < b.toNat
      · rw [if_pos hxy] at h1
        exact absurd h1 (by simp)
      · rw [if_neg hxy] at h1
        by_cases hyx : b.toNat < a.toNat
        · rw [if_pos hyx] at h2
          exact absurd h2 (by simp)
        · rw [if_neg hyx] at h1
          rw [if_neg (by omega : ¬ b.toNat < a.toNat), if_neg hxy] at h2
          have hab : a = b := char_toNat_inj (by omega)
          rw [hab, ih bs h1 h2]

theorem strData_eq {a b : String} (h : a.data = b.data) : a = b := by
  cases a
  cases b
  simp only at h
  rw [h]

instance : IsTotal String strLe :=
  ⟨by
    intro a b
    unfold strLe strLeB strLt
    by_cases h1 : charsLt a.data b.data = true
    · left
      simp [h1]
    · by_cases h2 : charsLt b.data a.data = true
      · right
        simp [h2]
      · left
        have : a = b := strData_eq (charsLt_eq_of_not _ _
          (Bool.not_eq_true _ ▸ h1) (Bool.not_eq_true _ ▸ h2))
        simp [this]⟩

instance : IsTrans String strLe :=
  ⟨by
    intro a b c hab hbc
    unfold strLe strLeB strLt at *
    rcases (Bool.or_eq_true _ _).mp hab with hlt1 | heq1
    · rcases (Bool.or_eq_true _ _).mp hbc with hlt2 | heq2
      · simp [charsLt_trans _ _ _ hlt1 hlt2]
      · have : b = c := eq_of_beq heq2
        subst this
        simp [hlt1]
    · have : a = b := eq_of_beq heq1
      subst this
      exact hbc⟩

theorem sortStrings_perm (l : List String) : List.Perm (sortStrings l) l :=
  List.perm_insertionSort _ l

theorem sortStrings_sorted (l : List String) : List.Sorted strLe (sortStrings l) :=
  List.sorted_insertionSort _ l

/-- Decomposition of every `expand_closure_from_edges` result: there is a
duplicate-free visited set `V` extending the deduplicated seeds such that the
result fields are built from it exactly as in the source, and `V` respects
the cap. -/
theorem expand_parts (seed_ids : List String) (edges : List EdgeView)
    (allowed_types : List String) (mn : Option Int) (direction : String) :
    ∃ V : List String,
      (ordered_unique seed_ids) <+: V ∧ V.Nodup ∧ "" ∉ V ∧
      (expand_closure_from_edges seed_ids edges allowed_types mn direction).seed_ids
        = ordered_unique seed_ids ∧
      (expand_closure_from_edges seed_ids edges allowed_types mn direction).ordered_ids
        = ordered_unique seed_ids ++
          (sortStrings V).filter (fun nid => nid ∉ ordered_unique seed_ids) ∧
      (expand_closure_from_edges seed_ids edges allowed_types mn direction).closure_added_ids
        = ((ordered_unique seed_ids ++
            (sortStrings V).filter (fun nid => nid ∉ ordered_unique seed_ids)).filter
              (fun nid => nid ∉ ordered_unique seed_ids)) ∧
      (∀ m, mn = some m →
        ((V.length : Int) ≤ max m ((ordered_unique seed_ids).length : Int)) ∧
        ((expand_closure_from_edges seed_ids edges allowed_types mn direction).truncated = true →
          m ≤ (V.length : Int))) := by
  unfold expand_closure_from_edges
  dsimp only
  split
  · refine ⟨ordered_unique seed_ids, List.prefix_rfl, ordered_unique_nodup _,
      ordered_unique_ne_empty _, rfl, ?_, ?_, ?_⟩
    · have hnil : (sortStrings (ordered_unique seed_ids)).filter
          (fun nid => (decide (nid ∉ ordered_unique seed_ids))) = [] := by
        rw [List.filter_eq_nil]
        intro a ha
        have : a ∈ ordered_unique seed_ids := ((sortStrings_perm _).mem_iff).mp ha
        simpa using this
      rw [hnil, List.append_nil]
    · have hnil : (sortStrings (ordered_unique seed_ids)).filter
          (fun nid => (decide (nid ∉ ordered_unique seed_ids))) = [] := by
        rw [List.filter_eq_nil]
        intro a ha
        have : a ∈ ordered_unique seed_ids := ((sortStrings_perm _).mem_iff).mp ha
        simpa using this
      rw [hnil, List.append_nil]
      symm
      rw [List.filter_eq_nil]
      intro a ha
      simpa using ha
    · intro m hm
      subst hm
      refine ⟨le_max_right _ _, ?_⟩
      intro h
      exact absurd h (by simp)
  · set seeds := ordered_unique seed_ids with hseeds
    set allowed := (allowed_types.filter (fun t => t ≠ "")).dedup with hallowed
    set dir := (if direction = "out" ∨ direction = "in" ∨ direction = "both"
      then direction else "out") with hdir
    have hinv := @bfsRun_inv seeds.length mn dir
      (outAdj allowed edges) (inAdj allowed edges)
      (outAdj_fst_ne_empty allowed edges)
      (seeds.length + 2 * edges.length + 1) ⟨seeds, seeds, [], false⟩
      ⟨ordered_unique_nodup _, ordered_unique_ne_empty _, fun _ hx => hx, by
        intro m hm
        exact ⟨le_max_right _ _, by simp⟩⟩
    exact ⟨_, bfsRun_visited_pre _ _ _ _ _ ⟨seeds, seeds, [], false⟩, hinv.1, hinv.2.1,
      rfl, rfl, rfl, fun m hm => hinv.2.2.2 m hm⟩

theorem filter_append_not_mem (seeds added : List String)
    (h : ∀ x ∈ added, x ∉ seeds) :
    (seeds ++ added).filter (fun nid => nid ∉ seeds) = added := by
  rw [List.filter_append]
  have h1 : seeds.filter (fun nid => nid ∉ seeds) = [] := by
    rw [List.filter_eq_nil]
    intro a ha
    simpa using ha
  have h2 : added.filter (fun nid => nid ∉ seeds) = added := by
    rw [List.filter_eq_self]
    intro a ha
    simpa using h a ha
  rw [h1, h2, List.nil_append]

theorem expand_len_aux {seeds V : List String} (hpre : seeds <+: V) (hnd : V.Nodup) :
    (seeds ++ (sortStrings V).filter (fun nid => nid ∉ seeds)).length = V.length := by
  obtain ⟨tail, rfl⟩ := hpre
  have hdisj := (List.nodup_append.mp hnd).2.2
  rw [List.length_append]
  have h1 : ((sortStrings (seeds ++ tail)).filter (fun nid => nid ∉ seeds)).length
      = (seeds ++ tail).countP (fun nid => nid ∉ seeds) := by
    rw [← List.countP_eq_length_filter]
    exact (sortStrings_perm _).countP_eq _
  rw [h1, List.countP_append]
  have h2 : seeds.countP (fun nid => nid ∉ seeds) = 0 := by
    rw [List.countP_eq_zero]
    intro a ha
    simpa using ha
  have h3 : tail.countP (fun nid => nid ∉ seeds) = tail.length := by
    rw [List.countP_eq_length]
    intro a ha
    simpa using fun hmem => hdisj hmem ha
  rw [h2, h3, List.length_append]
  omega

/-- C8: every `expand_closure_from_edges` result lists the deduplicated seeds
first, in their original order, followed by `closure_added_ids`, which is
duplicate-free, disjoint from the seeds, and sorted in lexicographic id order
(not BFS discovery order). -/
theorem claim_C8_result_order (seed_ids : List String) (edges : List EdgeView)
    (allowed_types : List String) (max_nodes : Option Int) (direction : String) :
    (expand_closure_from_edges seed_ids edges allowed_types max_nodes direction).seed_ids
      = ordered_unique seed_ids ∧
    (expand_closure_from_edges seed_ids edges allowed_types max_nodes direction).ordered_ids
      = ordered_unique seed_ids ++
        (expand_closure_from_edges seed_ids edges allowed_types max_nodes direction).closure_added_ids ∧
    List.Sorted strLe
      (expand_closure_from_edges seed_ids edges allowed_types max_nodes direction).closure_added_ids ∧
    (expand_closure_from_edges seed_ids edges allowed_types max_nodes direction).closure_added_ids.Nodup ∧
    ∀ x ∈ (expand_closure_from_edges seed_ids edges allowed_types max_nodes direction).closure_added_ids,
      x ∉ ordered_unique seed_ids := by
  obtain ⟨V, hpre, hnd, _, hseed, hord, hadd, _⟩ :=
    expand_parts seed_ids edges allowed_types max_nodes direction
  have hmem : ∀ x ∈ (sortStrings V).filter (fun nid => nid ∉ ordered_unique seed_ids),
      x ∉ ordered_unique seed_ids := by
    intro x hx
    simpa using (List.mem_filter.mp hx).2
  have haddid : (expand_closure_from_edges seed_ids edges allowed_types max_nodes direction).closure_added_ids
      = (sortStrings V).filter (fun nid => nid ∉ ordered_unique seed_ids) := by
    rw [hadd]
    exact filter_append_not_mem _ _ hmem
  refine ⟨hseed, ?_, ?_, ?_, ?_⟩
  · rw [hord, haddid]
  · rw [haddid]
    exact (sortStrings_sorted V).filter _
  · rw [haddid]
    exact (((sortStrings_perm V).nodup_iff).mpr hnd).filter _
  · rw [haddid]
    exact hmem

set_option maxRecDepth 4000 in
/-- C5, counterexample to the claim as stated: with seeds `["A","B","C"]`,
one allowed edge `A→D` and `max_nodes = 1`, the closure is truncated but
`ordered_ids` keeps all three seeds, so its length exceeds `max_nodes`. -/
theorem claim_C5_counterexample :
    (expand_closure_from_edges ["A", "B", "C"] [⟨"A", "D", "T"⟩] ["T"] (some 1) "out").truncated
      = true ∧
    ¬ ((expand_closure_from_edges ["A", "B", "C"] [⟨"A", "D", "T"⟩] ["T"] (some 1) "out").ordered_ids.length
      ≤ 1) := by
  decide

/-- C5, amended: with a cap `m`, a truncated result has at most
`max m (#deduplicated seeds)` ids (the seed list itself is never truncated),
and if the final id count is still below the cap the result is not truncated. -/
theorem claim_C5_amended (seed_ids : List String) (edges : List EdgeView)
    (allowed_types : List String) (m : Int) (direction : String) :
    ((expand_closure_from_edges seed_ids edges allowed_types (some m) direction).truncated = true →
      ((expand_closure_from_edges seed_ids edges allowed_types (some m) direction).ordered_ids.length : Int)
        ≤ max m ((expand_closure_from_edges seed_ids edges allowed_types (some m) direction).seed_ids.length : Int)) ∧
    (((expand_closure_from_edges seed_ids edges allowed_types (some m) direction).ordered_ids.length : Int) < m →
      (expand_closure_from_edges seed_ids edges allowed_types (some m) direction).truncated = false) := by
  obtain ⟨V, hpre, hnd, _, hseed, hord, _, hcap⟩ :=
    expand_parts seed_ids edges allowed_types (some m) direction
  have hlen : (expand_closure_from_edges seed_ids edges allowed_types (some m) direction).ordered_ids.length
      = V.length := by
    rw [hord]
    exact expand_len_aux hpre hnd
  have hc := hcap m rfl
  constructor
  · intro _
    rw [hlen, hseed]
    exact hc.1
  · intro hlt
    rw [hlen] at hlt
    cases htr : (expand_closure_from_edges seed_ids edges allowed_types (some m) direction).truncated with
    | false => rfl
    | true =>
      have := hc.2 htr
      omega

/-- C5, witness: the amended bound holds at the counterexample input, and a
closure staying below its cap reports `truncated = false`. -/
theorem claim_C5_witness :
    (((expand_closure_from_edges ["A", "B", "C"] [⟨"A", "D", "T"⟩] ["T"] (some 1) "out").ordered_ids.length : Int)
      ≤ max 1 ((expand_closure_from_edges ["A", "B", "C"] [⟨"A", "D", "T"⟩] ["T"] (some 1) "out").seed_ids.length : Int)) ∧
    (expand_closure_from_edges ["A"] [] ["T"] (some 5) "out").truncated = false :=
  ⟨(claim_C5_amended ["A", "B", "C"] [⟨"A", "D", "T"⟩] ["T"] 1 "out").1 (by decide),
   (claim_C5_amended ["A"] [] ["T"] 5 "out").2 (by decide)⟩

set_option maxRecDepth 100000 in
/-- C6, counterexample to the claim as stated: 201 copies of the same allowed
edge make the BFS record 201 trace entries; `visited_edge_count` is 201 while
the returned `edge_trace` is capped at 200, so the two disagree. -/
theorem claim_C6_counterexample :
    (expand_closure_from_edges ["A"] (List.replicate 201 ⟨"A", "B", "T"⟩) ["T"] none "out").visited_edge_count
      = 201 ∧
    (expand_closure_from_edges ["A"] (List.replicate 201 ⟨"A", "B", "T"⟩) ["T"] none "out").edge_trace.length
      = 200 := by
  decide

/-- C6, amended: `edge_trace` is the 200-entry-capped prefix of the recorded
trace whose full length is `visited_edge_count`; the two agree exactly when at
most 200 edges were recorded. -/
theorem claim_C6_amended (seed_ids : List String) (edges : List EdgeView)
    (allowed_types : List String) (max_nodes : Option Int) (direction : String) :
    (expand_closure_from_edges seed_ids edges allowed_types max_nodes direction).edge_trace.length
      = min (expand_closure_from_edges seed_ids edges allowed_types max_nodes direction).visited_edge_count 200 ∧
    ((expand_closure_from_edges seed_ids edges allowed_types max_nodes direction).visited_edge_count ≤ 200 →
      (expand_closure_from_edges seed_ids edges allowed_types max_nodes direction).visited_edge_count
        = (expand_closure_from_edges seed_ids edges allowed_types max_nodes direction).edge_trace.length) := by
  unfold expand_closure_from_edges
  dsimp only
  split
  · exact ⟨rfl, fun _ => rfl⟩
  · dsimp only
    constructor
    · rw [List.length_take]
      omega
    · intro h
      rw [List.length_take]
      omega

/-- C6, witness: on a closure recording a single edge the two counts agree. -/
theorem claim_C6_witness :
    (expand_closure_from_edges ["A"] [⟨"A", "B", "T"⟩] ["T"] none "out").visited_edge_count
      = (expand_closure_from_edges ["A"] [⟨"A", "B", "T"⟩] ["T"] none "out").edge_trace.length :=
  (claim_C6_amended ["A"] [⟨"A", "B", "T"⟩] ["T"] none "out").2 (by decide)

/-- C9, counterexample to the claim as stated: `"   "` is a non-empty string,
but `estimate_tokens` strips it first and returns `0`, not
`max 1 (⌈len/4⌉) = 1`. -/
theorem claim_C9_counterexample :
    estimate_tokens "   " = 0 ∧ max 1 ((("   " : String).length + 3) / 4) = 1 := by
  decide

/-- C9, amended: `estimate_tokens` works on the whitespace-stripped text:
it returns `max 1 (⌈len(strip(text))/4⌉)` when the stripped text is non-empty
and `0` when the text strips to empty (including whitespace-only inputs). -/
theorem claim_C9_amended (s : String) :
    (py_strip s ≠ "" → estimate_tokens s = max 1 (((py_strip s).length + 3) / 4)) ∧
    (py_strip s = "" → estimate_tokens s = 0) := by
  unfold estimate_tokens
  constructor
  · intro h
    rw [if_neg h]
  · intro h
    rw [if_pos h]

/-- C9, witness: the amended formula evaluated on `"hi"` and on `" "`. -/
theorem claim_C9_witness :
    estimate_tokens "hi" = max 1 (((py_strip "hi").length + 3) / 4) ∧
    estimate_tokens " " = 0 :=
  ⟨(claim_C9_amended "hi").1 (by decide), (claim_C9_amended " ").2 (by decide)⟩

/-- C1: evaluating the code on the claim's own example shows the bug: with the
single allowed edge `B→A`, seed `A` and direction `"in"`, the traversed edge is
recorded (`visited_edge_count = 1`) but `B` is never admitted, because the
source offers `cur` instead of the in-neighbour (`_offer(prv, cur, ...)`), so
`ordered_ids` stays `["A"]`. -/
theorem claim_C1_code_bug_eval :
    (expand_closure_from_edges ["A"] [⟨"B", "A", "T"⟩] ["T"] none "in").ordered_ids = ["A"] ∧
    "B" ∉ (expand_closure_from_edges ["A"] [⟨"B", "A", "T"⟩] ["T"] none "in").ordered_ids ∧
    (expand_closure_from_edges ["A"] [⟨"B", "A", "T"⟩] ["T"] none "in").visited_edge_count = 1 := by
  decide

theorem any_filterMap {α β : Type} (f : α → Option β) (p : β → Bool) :
    ∀ l : List α, (l.filterMap f).any p = l.any (fun a => ((f a).map p).getD false) := by
  intro l
  induction l with
  | nil => rfl
  | cons a t ih =>
    rw [List.filterMap_cons]
    cases h : f a with
    | none => simp [h, ih]
    | some b => simp [h, ih]

theorem anyCongr {α : Type} {p q : α → Bool} :
    ∀ {l : List α}, (∀ a ∈ l, p a = q a) → l.any p = l.any q := by
  intro l
  induction l with
  | nil => intro _; rfl
  | cons a t ih =>
    intro h
    simp only [List.any_cons]
    rw [h a (List.mem_cons_self a t), ih (fun x hx => h x (List.mem_cons_of_mem a hx))]

theorem cmpOrderedIds_ne_empty (records : List RecordView) (active_ids : List String) :
    "" ∉ cmpOrderedIds records active_ids := by
  intro h
  exact ordered_unique_ne_empty active_ids (List.mem_filter.mp h).1

theorem recById_id {records : List RecordView} {nid : String} {r : RecordView}
    (h : recById records nid = some r) : r.id = nid := by
  have := List.find?_some h
  simpa using this

theorem cmpActiveRecords_map_id (records : List RecordView) (active_ids : List String) :
    (cmpActiveRecords records active_ids).map (fun r => r.id) = cmpOrderedIds records active_ids := by
  rw [cmpActiveRecords]
  have hall : ∀ nid ∈ cmpOrderedIds records active_ids, (recById records nid).isSome := by
    intro nid hmem
    exact (List.mem_filter.mp hmem).2
  generalize cmpOrderedIds records active_ids = l at hall ⊢
  induction l with
  | nil => rfl
  | cons nid t ih =>
    have hs := hall nid (List.mem_cons_self nid t)
    obtain ⟨r, hr⟩ := Option.isSome_iff_exists.mp hs
    rw [List.filterMap_cons, hr]
    simp only [List.map_cons]
    rw [recById_id hr, ih (fun x hx => hall x (List.mem_cons_of_mem nid hx))]

theorem pay_any_eq (records : List RecordView) (active_ids : List String) (nid : String) :
    (cmpPayPairs records active_ids).any (fun pr => pr.1 == nid)
      = (cmpActiveRecords records active_ids).any
          (fun r => r.payload.parent_id == some nid && nid ∈ cmpOrderedIds records active_ids) := by
  rw [cmpPayPairs, any_filterMap]
  apply anyCongr
  intro r _
  cases hpid : r.payload.parent_id with
  | none => simp
  | some pid =>
    dsimp only
    by_cases hc : pid ≠ "" ∧ pid ∈ cmpOrderedIds records active_ids
    · rw [if_pos hc]
      by_cases hpn : pid = nid
      · subst hpn
        simp [hc.2]
      · simp [hpn, Ne.symm hpn]
    · rw [if_neg hc]
      by_cases hpn : pid = nid
      · subst hpn
        have hnm : pid ∉ cmpOrderedIds records active_ids := by
          intro hmem
          exact hc ⟨fun he => cmpOrderedIds_ne_empty records active_ids (he ▸ hmem), hmem⟩
        simp [hnm]
      · simp [hpn, Ne.symm hpn]

theorem edge_any_eq (records : List RecordView) (active_ids : List String)
    (edges : List EdgeView) (nid : String) :
    (cmpEdgePairs records active_ids edges).any (fun pr => pr.1 == nid)
      = edges.any (fun e => e.etype == "HAS_PART" && e.from_id == nid &&
          e.from_id ∈ cmpOrderedIds records active_ids &&
          e.to_id ∈ cmpOrderedIds records active_ids) := by
  rw [cmpEdgePairs, any_filterMap]
  apply anyCongr
  intro e _
  by_cases hc : e.etype = "HAS_PART" ∧ e.from_id ∈ cmpOrderedIds records active_ids ∧
      e.to_id ∈ cmpOrderedIds records active_ids ∧ e.from_id ≠ "" ∧ e.to_id ≠ ""
  · rw [if_pos hc]
    obtain ⟨h1, h2, h3, _, _⟩ := hc
    by_cases hfn : e.from_id = nid
    · subst hfn
      simp [h1, h2, h3]
    · have hb : (e.from_id == nid) = false := by
        simpa using hfn
      simp [hb]
  · rw [if_neg hc]
    refine Eq.symm (Bool.eq_false_iff.mpr ?_)
    intro hcon
    simp only [Bool.and_eq_true, beq_iff_eq, decide_eq_true_eq] at hcon
    obtain ⟨⟨⟨h1, h2⟩, h3⟩, h4⟩ := hcon
    refine hc ⟨h1, h3, h4, ?_, ?_⟩
    · intro he
      exact cmpOrderedIds_ne_empty records active_ids (he ▸ h3)
    · intro he
      exact cmpOrderedIds_ne_empty records active_ids (he ▸ h4)

theorem excluded_cond_eq (records : List RecordView) (active_ids : List String)
    (edges : List EdgeView) (nid : String) :
    (cmpAllPairs records active_ids edges).any (fun pr => pr.1 == nid)
      = specHasActiveChild records active_ids edges nid := by
  rw [cmpAllPairs, List.any_append, pay_any_eq, edge_any_eq, specHasActiveChild]

theorem cmpExcluded_eq_filter_spec (records : List RecordView) (active_ids : List String)
    (edges : List EdgeView) :
    cmpExcluded records active_ids edges
      = (cmpOrderedIds records active_ids).filter
          (fun nid => specHasActiveChild records active_ids edges nid) := by
  rw [cmpExcluded]
  apply List.filter_congr
  intro nid _
  exact excluded_cond_eq records active_ids edges nid

theorem cmpKept_eq_filter_spec (records : List RecordView) (active_ids : List String)
    (edges : List EdgeView) :
    cmpKept records active_ids edges
      = (cmpActiveRecords records active_ids).filter
          (fun r => ! specHasActiveChild records active_ids edges r.id) := by
  rw [cmpKept]
  apply List.filter_congr
  intro r hr
  have hrid : r.id ∈ cmpOrderedIds records active_ids := by
    rw [← cmpActiveRecords_map_id records active_ids]
    exact List.mem_map.mpr ⟨r, hr, rfl⟩
  have hmemiff : r.id ∈ cmpExcluded records active_ids edges ↔
      specHasActiveChild records active_ids edges r.id = true := by
    rw [cmpExcluded_eq_filter_spec]
    constructor
    · intro h
      exact (List.mem_filter.mp h).2
    · intro h
      exact List.mem_filter.mpr ⟨hrid, h⟩
  by_cases hs : specHasActiveChild records active_ids edges r.id = true
  · simp [hs, hmemiff.mpr hs]
  · have : r.id ∉ cmpExcluded records active_ids edges := fun h => hs (hmemiff.mp h)
    simp [this, Bool.eq_false_iff.mpr hs]

/-- C4, counterexample to the claim as stated: a single active record whose
`payload.parent_id` names itself.  The claim's relation ("parent_id naming
another active node") gives this node no child, so the claim predicts it is
kept; the code counts the self-reference and excludes it. -/
theorem claim_C4_counterexample :
    (compile_active_context_records
      [⟨"A", "Note", "x", "t0", ⟨some "A", none, none⟩⟩] ["A"] []).2.excluded_parent_ids
      = ["A"] ∧
    (compile_active_context_records
      [⟨"A", "Note", "x", "t0", ⟨some "A", none, none⟩⟩] ["A"] []).2.kept_node_ids = [] ∧
    ([(⟨"A", "Note", "x", "t0", ⟨some "A", none, none⟩⟩ : RecordView)].filter
      (fun r => r.payload.parent_id == some "A" && r.id != "A")) = [] := by
  decide

/-- C4, amended: `compile` excludes exactly those active nodes that have at
least one active child, where a child relation comes either from an active
record whose `payload.parent_id` names the node (possibly the record itself),
or from a `HAS_PART` edge whose both endpoints are active; the kept nodes are
rendered, in their filtered active-set order, as the compiled text. -/
theorem claim_C4_amended (records : List RecordView) (active_ids : List String)
    (edges : List EdgeView) :
    (compile_active_context_records records active_ids edges).2.excluded_parent_ids
      = (compile_active_context_records records active_ids edges).2.active_input_ids.filter
          (fun nid => specHasActiveChild records active_ids edges nid) ∧
    (compile_active_context_records records active_ids edges).2.kept_node_ids
      = (compile_active_context_records records active_ids edges).2.active_input_ids.filter
          (fun nid => ! specHasActiveChild records active_ids edges nid) ∧
    (compile_active_context_records records active_ids edges).1
      = py_strip (strJoin "\n\n"
          (((cmpActiveRecords records active_ids).filter
            (fun r => ! specHasActiveChild records active_ids edges r.id)).map renderBlock)) := by
  refine ⟨?_, ?_, ?_⟩
  · exact cmpExcluded_eq_filter_spec records active_ids edges
  · show (cmpKept records active_ids edges).map (fun r => r.id) = _
    rw [cmpKept_eq_filter_spec]
    have hcomp : (fun r : RecordView => ! specHasActiveChild records active_ids edges r.id)
        = ((fun nid => ! specHasActiveChild records active_ids edges nid) ∘ (fun r => r.id)) := rfl
    rw [hcomp, ← List.filter_map (fun r : RecordView => r.id), cmpActiveRecords_map_id]
    rfl
  · show py_strip (strJoin "\n\n" ((cmpKept records active_ids edges).map renderBlock)) = _
    rw [cmpKept_eq_filter_spec]

theorem greedySelect_cost_le (nodes : List NodeRec) (budget : Int) (top_k : Int) :
    ∀ (cands : List Candidate) (seeds sel : List String) (cost : Nat),
      (cost : Int) ≤ max 1 budget →
      ((greedySelect nodes budget top_k cands seeds sel cost).2.2 : Int) ≤ max 1 budget := by
  intro cands
  induction cands with
  | nil => intro seeds sel cost h; exact h
  | cons cand rest ih =>
    intro seeds sel cost h
    rw [greedySelect]
    dsimp only
    split
    · exact ih seeds sel cost h
    · rename_i hfit
      push_neg at hfit
      split
      · exact_mod_cast hfit
      · exact ih _ _ _ (by exact_mod_cast hfit)

/-- C2, counterexample to the claim as stated: with `budget_tokens = 0`, the
planner still accepts a 1-token candidate because the budget guard uses
`max(1, budget_tokens)`, so the committed cost (1) exceeds the budget (0). -/
theorem claim_C2_counterexample :
    (plan_unfold_candidates "hi" [⟨"n1", "Node", "hi"⟩] [] [] 8 16 0).recommended_cost_tokens = 1 ∧
    (plan_unfold_candidates "hi" [⟨"n1", "Node", "hi"⟩] [] [] 8 16 0).budget_tokens = 0 ∧
    ¬ ((plan_unfold_candidates "hi" [⟨"n1", "Node", "hi"⟩] [] [] 8 16 0).recommended_cost_tokens
        ≤ 0) := by
  decide

/-- C2, amended: for every input, the planner's committed token total
`recommended_cost_tokens` is at most `max(1, budget_tokens)` — the effective
budget the source compares against (so the stated bound `budget_tokens` holds
for every budget of at least 1, but not for 0 or negative budgets). -/
theorem claim_C2_amended (query : String) (nodes : List NodeRec) (edges : List EdgeView)
    (active_ids : List String) (top_k max_candidates budget_tokens : Int)
    (closure_edge_types : List String) (closure_direction : String)
    (max_closure_nodes : Option Int) :
    ((plan_unfold_candidates query nodes edges active_ids top_k max_candidates budget_tokens
        closure_edge_types closure_direction max_closure_nodes).recommended_cost_tokens : Int)
      ≤ max 1 budget_tokens := by
  show ((greedySelect nodes budget_tokens top_k _ [] _ 0).2.2 : Int) ≤ max 1 budget_tokens
  apply greedySelect_cost_le
  push_cast
  exact le_trans zero_le_one (le_max_left 1 budget_tokens)

theorem orderedUniqueGo_eq_self :
    ∀ (l seen : List String), l.Nodup → "" ∉ l → (∀ x ∈ l, x ∉ seen) →
      orderedUniqueGo seen l = l := by
  intro l
  induction l with
  | nil => intro _ _ _ _; rfl
  | cons a t ih =>
    intro seen hnd hne hseen
    rw [orderedUniqueGo, if_neg]
    · rw [ih (a :: seen) (List.nodup_cons.mp hnd).2
        (fun h => hne (List.mem_cons_of_mem a h)) ?_]
      intro x hx
      simp only [List.mem_cons]
      rintro (rfl | hxs)
      · exact (List.nodup_cons.mp hnd).1 hx
      · exact hseen x (List.mem_cons_of_mem a hx) hxs
    · push_neg
      exact ⟨fun h => hne (h ▸ List.mem_cons_self a t), hseen a (List.mem_cons_self a t)⟩

theorem ordered_unique_eq_self {l : List String} (hnd : l.Nodup) (hne : "" ∉ l) :
    ordered_unique l = l :=
  orderedUniqueGo_eq_self l [] hnd hne (by simp)

theorem expand_ordered_nodup (seed_ids : List String) (edges : List EdgeView)
    (allowed_types : List String) (mn : Option Int) (direction : String) :
    (expand_closure_from_edges seed_ids edges allowed_types mn direction).ordered_ids.Nodup ∧
    "" ∉ (expand_closure_from_edges seed_ids edges allowed_types mn direction).ordered_ids := by
  obtain ⟨V, hpre, hnd, hne, hseed, hord, hadd, hcap⟩ :=
    expand_parts seed_ids edges allowed_types mn direction
  rw [hord]
  constructor
  · rw [List.nodup_append]
    refine ⟨ordered_unique_nodup _, (((sortStrings_perm V).nodup_iff).mpr hnd).filter _, ?_⟩
    intro a ha hb
    have h2 := (List.mem_filter.mp hb).2
    simp only [decide_eq_true_eq] at h2
    exact h2 ha
  · intro hmem
    rcases List.mem_append.mp hmem with h | h
    · exact ordered_unique_ne_empty _ h
    · exact hne ((sortStrings_perm V).mem_iff.mp (List.mem_filter.mp h).1)

theorem foldl_pres {α β : Type} (f : β → α → β) (P : β → Prop)
    (hf : ∀ st a, P st → P (f st a)) :
    ∀ (l : List α) (st : β), P st → P (l.foldl f st) := by
  intro l
  induction l with
  | nil => intro st h; exact h
  | cons a t ih => intro st h; exact ih (f st a) (hf st a h)

/-- The invariant the apply loop maintains over its state. -/
def ApplyInv (act0 : List String) (st : ApplySt) : Prop :=
  (∃ suffix, st.active = act0 ++ suffix) ∧ st.active.Nodup ∧ "" ∉ st.active ∧
    ∀ x ∈ st.active, x ∈ st.selected

theorem applySeedStep_inv (nodes : List NodeRec) (edges : List EdgeView)
    (cet : List String) (cd : String) (mcn : Option Int) (budget : Int)
    (act0 : List String) (st : ApplySt) (seed_id : String)
    (h : ApplyInv act0 st) :
    ApplyInv act0 (applySeedStep nodes edges cet cd mcn budget st seed_id) := by
  obtain ⟨⟨suffix, hsuf⟩, hnd, hne, hsel⟩ := h
  rw [applySeedStep]
  split
  · exact ⟨⟨suffix, hsuf⟩, hnd, hne, hsel⟩
  · dsimp only
    split
    · have hclonodup := expand_ordered_nodup [seed_id] edges cet mcn cd
      refine ⟨⟨suffix ++ _, by rw [hsuf, List.append_assoc]⟩, ?_, ?_, ?_⟩
      · rw [List.nodup_append]
        refine ⟨hnd, hclonodup.1.filter _, ?_⟩
        intro a ha hb
        have := (List.mem_filter.mp hb).2
        simp only [Bool.and_eq_true, decide_eq_true_eq] at this
        exact this.2 (hsel a ha)
      · intro hmem
        rcases List.mem_append.mp hmem with hm | hm
        · exact hne hm
        · exact hclonodup.2 (List.mem_filter.mp hm).1
      · intro x hx
        rcases List.mem_append.mp hx with hm | hm
        · exact List.mem_append_left _ (hsel x hm)
        · exact List.mem_append_right _ hm
    · exact ⟨⟨suffix, hsuf⟩, hnd, hne, hsel⟩

/-- C10: `apply_unfold_seed_selection` preserves the caller's active set as a
prefix — `next_active_ids` is the deduplicated original `active_ids` followed
by `added_ids`, which is disjoint from it — and a seed whose recorded step is
rejected (`accepted = false`) changes neither the active list nor the running
`used_tokens` total. -/
theorem claim_C10_frame (seed_node_ids : List String) (nodes : List NodeRec)
    (edges : List EdgeView) (active_ids : List String) (budget_tokens : Int)
    (closure_edge_types : List String) (closure_direction : String)
    (max_closure_nodes : Option Int) :
    ((apply_unfold_seed_selection seed_node_ids nodes edges active_ids budget_tokens
        closure_edge_types closure_direction max_closure_nodes).next_active_ids
      = ordered_unique active_ids ++
        (apply_unfold_seed_selection seed_node_ids nodes edges active_ids budget_tokens
          closure_edge_types closure_direction max_closure_nodes).added_ids) ∧
    (∀ x ∈ (apply_unfold_seed_selection seed_node_ids nodes edges active_ids budget_tokens
        closure_edge_types closure_direction max_closure_nodes).added_ids,
      x ∉ ordered_unique active_ids) ∧
    (∀ (st : ApplySt) (seed_id : String) (s : ApplyStep),
      (applySeedStep nodes edges closure_edge_types closure_direction max_closure_nodes
          budget_tokens st seed_id).steps = st.steps ++ [s] →
      s.accepted = false →
      (applySeedStep nodes edges closure_edge_types closure_direction max_closure_nodes
          budget_tokens st seed_id).active = st.active ∧
      (applySeedStep nodes edges closure_edge_types closure_direction max_closure_nodes
          budget_tokens st seed_id).used = st.used) := by
  have hinv : ApplyInv (ordered_unique active_ids)
      ((ordered_unique seed_node_ids).foldl
        (applySeedStep nodes edges closure_edge_types closure_direction max_closure_nodes
          budget_tokens)
        ⟨ordered_unique active_ids, ordered_unique active_ids, 0, []⟩) := by
    apply foldl_pres _ (ApplyInv (ordered_unique active_ids))
    · intro st a h
      exact applySeedStep_inv nodes edges closure_edge_types closure_direction
        max_closure_nodes budget_tokens (ordered_unique active_ids) st a h
    · exact ⟨⟨[], (List.append_nil _).symm⟩, ordered_unique_nodup _,
        ordered_unique_ne_empty _, fun x hx => hx⟩
  obtain ⟨⟨suffix, hsuf⟩, hnd, hne, _⟩ := hinv
  have hdisj : ∀ x ∈ suffix, x ∉ ordered_unique active_ids := by
    intro x hx
    have h2 := List.nodup_append.mp (hsuf ▸ hnd)
    exact fun hmem => h2.2.2 hmem hx
  have hfilt : (ordered_unique active_ids ++ suffix).filter
      (fun nid => nid ∉ ordered_unique active_ids) = suffix :=
    filter_append_not_mem _ _ hdisj
  refine ⟨?_, ?_, ?_⟩
  · show ordered_unique ((ordered_unique seed_node_ids).foldl
        (applySeedStep nodes edges closure_edge_types closure_direction max_closure_nodes
          budget_tokens)
        ⟨ordered_unique active_ids, ordered_unique active_ids, 0, []⟩).active
      = ordered_unique active_ids ++
        ((ordered_unique seed_node_ids).foldl
          (applySeedStep nodes edges closure_edge_types closure_direction max_closure_nodes
            budget_tokens)
          ⟨ordered_unique active_ids, ordered_unique active_ids, 0, []⟩).active.filter
          (fun nid => nid ∉ ordered_unique active_ids)
    rw [hsuf, hfilt, ordered_unique_eq_self (hsuf ▸ hnd) (hsuf ▸ hne)]
  · show ∀ x ∈ ((ordered_unique seed_node_ids).foldl
        (applySeedStep nodes edges closure_edge_types closure_direction max_closure_nodes
          budget_tokens)
        ⟨ordered_unique active_ids, ordered_unique active_ids, 0, []⟩).active.filter
        (fun nid => nid ∉ ordered_unique active_ids), x ∉ ordered_unique active_ids
    rw [hsuf, hfilt]
    exact hdisj
  · intro st seed_id s hsteps hacc
    by_cases h1 : (node_by_id nodes seed_id).isNone
    · rw [applySeedStep, if_pos h1]
      exact ⟨rfl, rfl⟩
    · rw [applySeedStep, if_neg h1] at hsteps ⊢
      dsimp only at hsteps ⊢
      split at hsteps
      · rename_i hcond
        exfalso
        have h3 := List.append_cancel_left hsteps
        injection h3 with h4 h5
        rw [← h4] at hacc
        dsimp only at hacc
        exact absurd (hacc.symm.trans hcond) (by simp)
      · rename_i hcond
        rw [if_neg hcond]
        exact ⟨rfl, rfl⟩

/-- C10, witness: a seed whose 2-token closure exceeds the budget of 1 is
rejected and leaves the (empty) active list and the zero used-token total
unchanged. -/
theorem claim_C10_witness :
    (applySeedStep [⟨"n1", "Node", "aaaaa"⟩] [] ["DEPENDS", "HAS_PART", "SPLIT_FROM", "REFERENCES"]
        "both" (some 12) 1 ⟨[], [], 0, []⟩ "n1").active = [] ∧
    (applySeedStep [⟨"n1", "Node", "aaaaa"⟩] [] ["DEPENDS", "HAS_PART", "SPLIT_FROM", "REFERENCES"]
        "both" (some 12) 1 ⟨[], [], 0, []⟩ "n1").used = 0 :=
  (claim_C10_frame ["n1"] [⟨"n1", "Node", "aaaaa"⟩] [] [] 1
      ["DEPENDS", "HAS_PART", "SPLIT_FROM", "REFERENCES"] "both" (some 12)).2.2
    ⟨[], [], 0, []⟩ "n1"
    ⟨"n1", ["n1"], 2, false, expand_closure_from_edges ["n1"] []
      ["DEPENDS", "HAS_PART", "SPLIT_FROM", "REFERENCES"] (some 12) "both"⟩
    rfl rfl

/-- C7, counterexample to the claim as stated: the hierarchy's per-node
vectorization, handed a stored embedding of length 2 (≠ the configured 1536),
does not fail — it silently substitutes the lexical fallback vector. -/
theorem claim_C7_counterexample :
    _vector_for_node ⟨"n1", "Node", "hi", "t0", none⟩ (some [⟨1, 1⟩, ⟨2, 1⟩]) (fun _ => 0)
      = vectorFallback ⟨"n1", "Node", "hi", "t0", none⟩ (fun _ => 0) ∧
    (2 : Nat) ≠ EMBED_DIM := by
  refine ⟨?_, by decide⟩
  dsimp only [_vector_for_node]
  rw [if_neg]
  intro hc
  exact absurd hc.1 (by decide)

/-- C7, amended: the embedding-service paths do fail loudly on a non-empty
stored vector of the wrong dimension (`_validate_dim` and
`_extract_valid_vec` raise), but `ensure_node_embedding` catches that error
and re-embeds, and the hierarchy's `_vector_for_node` silently ignores the
wrong-dimension stored vector, behaving exactly as if no embedding were
stored (substituting the deterministic lexical fallback). -/
theorem claim_C7_amended :
    (∀ (v : List PyFloat) (src : String), v.isEmpty = false → v.length ≠ EMBED_DIM →
      ∃ e, _validate_dim v src = .error e) ∧
    (∀ (v : List PyFloat) (nid : String), v.isEmpty = false → v.length ≠ EMBED_DIM →
      ∃ e, _extract_valid_vec (some v) nid = .error e) ∧
    (∀ (v : List PyFloat) (nid : String), v.isEmpty = false → v.length ≠ EMBED_DIM →
      ensureExistingVec (some v) nid = none) ∧
    (∀ (node : HNode) (v : List PyFloat) (h : String → Int), v.length ≠ EMBED_DIM →
      _vector_for_node node (some v) h = _vector_for_node node none h) := by
  have h1 : ∀ (v : List PyFloat) (src : String), v.isEmpty = false → v.length ≠ EMBED_DIM →
      ∃ e, _validate_dim v src = .error e := by
    intro v src hemp hlen
    refine ⟨src ++ ": embedding dim mismatch", ?_⟩
    rw [_validate_dim, if_neg (by simp [hemp]), if_pos hlen]
  have h2 : ∀ (v : List PyFloat) (nid : String), v.isEmpty = false → v.length ≠ EMBED_DIM →
      ∃ e, _extract_valid_vec (some v) nid = .error e := by
    intro v nid hemp hlen
    obtain ⟨e, he⟩ := h1 v ("node embedding " ++ nid) hemp hlen
    refine ⟨e, ?_⟩
    rw [_extract_valid_vec]
    rw [if_neg (by simp [hemp])]
    rw [he]
  refine ⟨h1, h2, ?_, ?_⟩
  · intro v nid hemp hlen
    obtain ⟨e, he⟩ := h2 v nid hemp hlen
    rw [ensureExistingVec, he]
  · intro node v h hlen
    rw [_vector_for_node, _vector_for_node]
    rw [if_neg (fun hc => hlen hc.1)]

/-- C7, witness: the amended behaviour evaluated on the concrete length-2
stored vector — validation raises, the ensure path swallows it, and the
hierarchy vectorizer treats the stored vector as missing. -/
theorem claim_C7_witness :
    (∃ e, _validate_dim [⟨1, 1⟩, ⟨2, 1⟩] "s" = .error e) ∧
    (∃ e, _extract_valid_vec (some [⟨1, 1⟩, ⟨2, 1⟩]) "n1" = .error e) ∧
    ensureExistingVec (some [⟨1, 1⟩, ⟨2, 1⟩]) "n1" = none ∧
    _vector_for_node ⟨"n1", "Node", "hi", "t0", none⟩ (some [⟨1, 1⟩, ⟨2, 1⟩]) (fun _ => 0)
      = _vector_for_node ⟨"n1", "Node", "hi", "t0", none⟩ none (fun _ => 0) :=
  ⟨claim_C7_amended.1 [⟨1, 1⟩, ⟨2, 1⟩] "s" rfl (by decide),
   claim_C7_amended.2.1 [⟨1, 1⟩, ⟨2, 1⟩] "n1" rfl (by decide),
   claim_C7_amended.2.2.1 [⟨1, 1⟩, ⟨2, 1⟩] "n1" rfl (by decide),
   claim_C7_amended.2.2.2 ⟨"n1", "Node", "hi", "t0", none⟩ [⟨1, 1⟩, ⟨2, 1⟩]
     (fun _ => 0) (by decide)⟩

/-! ### C3: hierarchy clusterer invariants -/

/-- Well-formedness of a clusterer item as produced by
`_apply_structural_grouping`: leaf ids are non-empty strings and group kinds
are the structural kinds, never `"leaf"`. -/
def ItemWF {Vec : Type} : HItem Vec → Prop
  | .leaf n _ => n.id ≠ ""
  | .group _ _ kind gch => kind ≠ "leaf" ∧ ∀ c ∈ gch, c.1.id ≠ ""

/-- The tree invariant: every internal node's `leaf_node_ids` is a
permutation of the concatenation of its children's, and every leaf node
carries a non-empty `node_id` matching its singleton `leaf_node_ids`. -/
def TreeInv : HTree → Prop
  | .node _ kind _ children lids node_id _ _ =>
    (kind ≠ "leaf" → List.Perm lids (children.flatMap HTree.getLeafIds)) ∧
    (kind = "leaf" → ∃ nid, node_id = some nid ∧ nid ≠ "" ∧ lids = [nid] ∧ children = []) ∧
    ∀ c ∈ children, TreeInv c

/-- Folding items into two sides, one at a time, permutes their union. -/
theorem foldl_two_sided_perm {α : Type} (step : (List α × List α) → α → (List α × List α))
    (hstep : ∀ acc it, step acc it = (acc.1 ++ [it], acc.2) ∨ step acc it = (acc.1, acc.2 ++ [it])) :
    ∀ (items : List α) (acc : List α × List α),
      List.Perm ((items.foldl step acc).1 ++ (items.foldl step acc).2)
        (acc.1 ++ acc.2 ++ items) := by
  intro items
  induction items with
  | nil => intro acc; simp
  | cons it rest ih =>
    intro acc
    rw [List.foldl_cons]
    refine (ih (step acc it)).trans ?_
    rcases hstep acc it with h | h <;> rw [h]
    · have e1 : ((acc.1 ++ [it]) ++ acc.2) ++ rest = acc.1 ++ (it :: (acc.2 ++ rest)) := by
        simp
      have e2 : (acc.1 ++ acc.2) ++ (it :: rest) = acc.1 ++ (acc.2 ++ (it :: rest)) := by
        simp
      rw [e1, e2]
      exact List.Perm.append_left acc.1 List.perm_middle.symm
    · refine List.Perm.of_eq ?_
      simp

/-- `_partition_bisect` splits the items into two lists whose concatenation
is a permutation of the input. -/
theorem partition_perm {Vec : Type} (cosV : Vec → Vec → PyFloat)
    (meanV : List Vec → Option Vec) (allcloseV : Vec → Vec → Bool)
    (items l r : List (HItem Vec))
    (h : _partition_bisect cosV meanV allcloseV items = some (l, r)) :
    List.Perm (l ++ r) items := by
  rw [_partition_bisect] at h
  dsimp only at h
  split at h
  · exact absurd h (by simp)
  · split at h
    · -- fewer than two items with vectors: plain mid split
      split at h
      · exact absurd h (by simp)
      · injection h with h'
        injection h' with h1 h2
        subst h1; subst h2
        exact List.Perm.of_eq (List.take_append_drop _ _)
    · split at h
      · -- b_vec, c_vec both present
        next bv cv hb hc =>
        split at h
        · -- allclose: mid split of the sorted items
          split at h
          · injection h with h'
            injection h' with h1 h2
            subst h1; subst h2
            exact (List.Perm.of_eq (List.take_append_drop _ _)).trans
              (List.perm_insertionSort itemLe items)
          · exact absurd h (by simp)
        · -- genuine partition loop
          have hstep : ∀ (acc : List (HItem Vec) × List (HItem Vec)) it,
              bisStep cosV meanV bv cv
                  ((sortItems (items.filter (fun it => (HItem.centroid meanV it).isSome))).headD
                    default).sortKey acc it = (acc.1 ++ [it], acc.2) ∨
              bisStep cosV meanV bv cv
                  ((sortItems (items.filter (fun it => (HItem.centroid meanV it).isSome))).headD
                    default).sortKey acc it = (acc.1, acc.2 ++ [it]) := by
            intro acc it
            rw [bisStep]
            rcases hcv : HItem.centroid meanV it with _ | v
            · dsimp only
              split
              · exact Or.inl rfl
              · exact Or.inr rfl
            · dsimp only
              split
              · exact Or.inl rfl
              · split
                · exact Or.inr rfl
                · split
                  · exact Or.inl rfl
                  · exact Or.inr rfl
          split at h
          · -- final match, none arm: contradiction
            exact absurd h (by simp)
          · -- final match, some arm: h gives l, r as sorted halves
            next l0 r0 heq =>
            injection h with h'
            injection h' with h1 h2
            subst h1; subst h2
            refine (List.Perm.append (List.perm_insertionSort itemLe _)
              (List.perm_insertionSort itemLe _)).trans ?_
            split at heq
            · -- a side was empty: sorted mid split
              split at heq
              · exact absurd heq (by simp)
              · injection heq with hq
                injection hq with hq1 hq2
                subst hq1; subst hq2
                exact (List.Perm.of_eq (List.take_append_drop _ _)).trans
                  (List.perm_insertionSort itemLe items)
            · -- both sides inhabited: the loop itself
              injection heq with hq
              have h1 := congrArg Prod.fst hq
              have h2 := congrArg Prod.snd hq
              dsimp at h1 h2
              subst h1; subst h2
              simpa using foldl_two_sided_perm _ hstep items ([], [])
      · exact absurd h (by simp)

theorem itemsLeafIds_cons {Vec : Type} (it : HItem Vec) (l : List (HItem Vec)) :
    itemsLeafIds (it :: l) = it.leafIds ++ itemsLeafIds l := rfl

/-- The leaf items rebuilt from a group's children list carry exactly the
children's ids. -/
theorem itemsLeafIds_leafMap {Vec : Type} (gch : List (HNode × Option Vec)) :
    itemsLeafIds (gch.map (fun c => HItem.leaf c.1 c.2)) = gch.map (fun c => c.1.id) := by
  induction gch with
  | nil => rfl
  | cons c rest ih =>
    rw [List.map_cons, itemsLeafIds_cons, ih]
    rfl

theorem sortItems_perm {Vec : Type} (l : List (HItem Vec)) :
    List.Perm (sortItems l) l :=
  List.perm_insertionSort itemLe l

theorem leafTree_inv (n : HNode) (h : n.id ≠ "") : TreeInv (leafTreeOf n) := by
  unfold leafTreeOf TreeInv
  exact ⟨fun hk => absurd rfl hk,
    fun _ => ⟨n.id, rfl, h, rfl, rfl⟩,
    fun c hc => absurd hc (by simp)⟩

/-- The terminal-branch children loop preserves the tree invariant and
appends the items' leaf ids, in order, to the accumulated children's. -/
theorem buildStep_fold_inv {Vec : Type}
    (rec : List (HItem Vec) → Nat → Nat → Nat → HTree × Nat) (mls depth : Nat)
    (hrec : ∀ its m d sq, (∀ it ∈ its, ItemWF it) →
      TreeInv (rec its m d sq).1 ∧ (rec its m d sq).1.kindOf ≠ "leaf" ∧
        List.Perm (rec its m d sq).1.getLeafIds (itemsLeafIds its)) :
    ∀ (items : List (HItem Vec)) (acc : List HTree × Nat),
      (∀ it ∈ items, ItemWF it) → (∀ c ∈ acc.1, TreeInv c) →
      (∀ c ∈ (items.foldl (buildStep rec mls depth) acc).1, TreeInv c) ∧
      (items.foldl (buildStep rec mls depth) acc).1.flatMap HTree.getLeafIds =
        acc.1.flatMap HTree.getLeafIds ++ itemsLeafIds items := by
  intro items
  induction items with
  | nil =>
    intro acc _ hacc
    exact ⟨hacc, by simp [itemsLeafIds]⟩
  | cons it rest ih =>
    intro acc hwf hacc
    rw [List.foldl_cons]
    have hwf_it : ItemWF it := hwf it (by simp)
    have hwf_rest : ∀ x ∈ rest, ItemWF x := fun x hx => hwf x (by simp [hx])
    have hstep : (∀ c ∈ (buildStep rec mls depth acc it).1, TreeInv c) ∧
        (buildStep rec mls depth acc it).1.flatMap HTree.getLeafIds =
          acc.1.flatMap HTree.getLeafIds ++ it.leafIds := by
      cases it with
      | leaf n v =>
        rw [buildStep]
        constructor
        · intro c hc
          rw [List.mem_append] at hc
          rcases hc with hc | hc
          · exact hacc c hc
          · rw [List.mem_singleton] at hc
            subst hc
            exact leafTree_inv n hwf_it
        · simp [leafTreeOf, HItem.leafIds, HTree.getLeafIds]
      | group gid label kind gch =>
        have hgwf : ∀ x ∈ gch.map (fun c => HItem.leaf c.1 c.2), ItemWF x := by
          intro x hx
          rw [List.mem_map] at hx
          obtain ⟨c, hc, rfl⟩ := hx
          exact hwf_it.2 c hc
        obtain ⟨hti, hkind, hperm⟩ :=
          hrec (gch.map (fun c => HItem.leaf c.1 c.2)) (max 2 (mls - 1)) (depth + 1)
            acc.2 hgwf
        rw [buildStep]
        dsimp only
        rcases hr1 : (rec (gch.map (fun c => HItem.leaf c.1 c.2)) (max 2 (mls - 1))
            (depth + 1) acc.2).1 with ⟨a, b, lb, ch, lids, nid, nty, sz⟩
        rw [hr1] at hti hkind hperm
        simp only [TreeInv] at hti
        dsimp only [HTree.kindOf, HTree.getLeafIds] at hkind hperm
        obtain ⟨hc1, _hc2, hc3⟩ := hti
        have hlids : List.Perm (gch.map (fun c => c.1.id)) (ch.flatMap HTree.getLeafIds) := by
          refine List.Perm.trans ?_ (hc1 hkind)
          rw [← itemsLeafIds_leafMap gch]
          exact hperm.symm
        constructor
        · intro c hc
          rw [List.mem_append] at hc
          rcases hc with hc | hc
          · exact hacc c hc
          · rw [List.mem_singleton] at hc
            subst hc
            simp only [TreeInv]
            exact ⟨fun _ => hlids, fun hk => absurd hk hwf_it.1, hc3⟩
        · simp [HItem.leafIds, HTree.getLeafIds]
    obtain ⟨hstep1, hstep2⟩ := hstep
    obtain ⟨ih1, ih2⟩ := ih (buildStep rec mls depth acc it) hwf_rest hstep1
    refine ⟨ih1, ?_⟩
    rw [ih2, hstep2, itemsLeafIds_cons, List.append_assoc]

theorem itemFlat_leafIds {Vec : Type} (it : HItem Vec) :
    (itemFlat it).getLeafIds = it.leafIds := by
  cases it <;> rfl

theorem group_flat_leafIds {Vec : Type} (gch : List (HNode × Option Vec)) :
    (gch.map (fun c => leafTreeOf c.1)).flatMap HTree.getLeafIds =
      gch.map (fun c => c.1.id) := by
  induction gch with
  | nil => rfl
  | cons c rest ih =>
    rw [List.map_cons, List.flatMap_cons, ih]
    rfl

theorem itemFlat_inv {Vec : Type} (it : HItem Vec) (hwf : ItemWF it) :
    TreeInv (itemFlat it) := by
  cases it with
  | leaf n v => exact leafTree_inv n hwf
  | group gid label kind gch =>
    simp only [itemFlat, TreeInv]
    refine ⟨fun _ => List.Perm.of_eq (group_flat_leafIds gch).symm,
      fun hk => absurd hk hwf.1, ?_⟩
    intro c hc
    rw [List.mem_map] at hc
    obtain ⟨p, hp, rfl⟩ := hc
    exact leafTree_inv p.1 (hwf.2 p hp)

theorem mapFlat_leafIds {Vec : Type} (items : List (HItem Vec)) :
    (items.map itemFlat).flatMap HTree.getLeafIds = itemsLeafIds items := by
  induction items with
  | nil => rfl
  | cons it rest ih =>
    rw [List.map_cons, List.flatMap_cons, ih, itemFlat_leafIds]
    rfl

theorem fuelBase_inv {Vec : Type} (items : List (HItem Vec)) (depth seq : Nat)
    (hwf : ∀ it ∈ items, ItemWF it) :
    TreeInv (fuelBase items depth seq) ∧ (fuelBase items depth seq).kindOf ≠ "leaf" ∧
      (fuelBase items depth seq).getLeafIds = itemsLeafIds items := by
  refine ⟨?_, ?_, rfl⟩
  · simp only [fuelBase, TreeInv]
    refine ⟨fun _ => List.Perm.of_eq (mapFlat_leafIds items).symm,
      fun hk => absurd hk (by split <;> decide), ?_⟩
    intro c hc
    rw [List.mem_map] at hc
    obtain ⟨it, hit, rfl⟩ := hc
    exact itemFlat_inv it (hwf it hit)
  · dsimp only [fuelBase, HTree.kindOf]
    split <;> decide

/-- Invariant of the fuel-indexed builder: for every fuel, the returned tree
satisfies the (multiset) concatenation invariant, is not itself a leaf, and
its `leaf_node_ids` is a permutation of the input items' leaf ids. -/
theorem buildRec_inv {Vec : Type} (cosV : Vec → Vec → PyFloat)
    (meanV : List Vec → Option Vec) (allcloseV : Vec → Vec → Bool)
    (nodes : List HNode) :
    ∀ (fuel : Nat) (items : List (HItem Vec)) (mls depth seq : Nat),
      (∀ it ∈ items, ItemWF it) →
      TreeInv (buildRec cosV meanV allcloseV nodes fuel items mls depth seq).1 ∧
      (buildRec cosV meanV allcloseV nodes fuel items mls depth seq).1.kindOf ≠ "leaf" ∧
      List.Perm
        (buildRec cosV meanV allcloseV nodes fuel items mls depth seq).1.getLeafIds
        (itemsLeafIds items) := by
  intro fuel
  induction fuel with
  | zero =>
    intro items mls depth seq hwf
    simp only [buildRec]
    obtain ⟨h1, h2, h3⟩ := fuelBase_inv items depth seq hwf
    exact ⟨h1, h2, List.Perm.of_eq h3⟩
  | succ fuel ih =>
    intro items0 mls depth seq hwf
    simp only [buildRec]
    have hwfs : ∀ it ∈ sortItems items0, ItemWF it :=
      fun it h => hwf it ((sortItems_perm items0).mem_iff.mp h)
    split
    · -- terminal branch
      obtain ⟨h1, h2⟩ := buildStep_fold_inv
        (fun its m d sq => buildRec cosV meanV allcloseV nodes fuel its m d sq) mls depth
        (fun its m d sq hw => ih its m d sq hw) (sortItems items0) ([], seq) hwfs
        (by intro c hc; exact absurd hc (by simp))
      refine ⟨?_, ?_, ?_⟩
      · simp only [TreeInv]
        exact ⟨fun _ => List.Perm.refl _, fun hk => absurd hk (by split <;> decide), h1⟩
      · dsimp only [HTree.kindOf]
        split <;> decide
      · dsimp only [HTree.getLeafIds]
        rw [h2]
        simp only [List.flatMap_nil, List.nil_append]
        exact (sortItems_perm items0).flatMap_right _
    · -- bisect branch
      split
      · -- partition failed: terminal fallback at smaller fuel
        obtain ⟨h1, h2, h3⟩ := ih (sortItems items0) 10000 depth seq hwfs
        exact ⟨h1, h2, h3.trans ((sortItems_perm items0).flatMap_right _)⟩
      · next li ri hpart =>
        have hp := partition_perm cosV meanV allcloseV (sortItems items0) li ri hpart
        have hli : ∀ x ∈ li, ItemWF x := fun x hx =>
          hwf x ((sortItems_perm items0).mem_iff.mp
            (hp.mem_iff.mp (List.mem_append.mpr (Or.inl hx))))
        have hri : ∀ x ∈ ri, ItemWF x := fun x hx =>
          hwf x ((sortItems_perm items0).mem_iff.mp
            (hp.mem_iff.mp (List.mem_append.mpr (Or.inr hx))))
        obtain ⟨hlI, hlK, hlP⟩ := ih li mls (depth + 1) (seq + 1) hli
        obtain ⟨hrI, hrK, hrP⟩ := ih ri mls (depth + 1)
          ((buildRec cosV meanV allcloseV nodes fuel li mls (depth + 1) (seq + 1)).2 + 1) hri
        have hcat : List.Perm (itemsLeafIds li ++ itemsLeafIds ri) (itemsLeafIds items0) := by
          have : itemsLeafIds li ++ itemsLeafIds ri = itemsLeafIds (li ++ ri) := by
            simp [itemsLeafIds]
          rw [this]
          exact (hp.flatMap_right _).trans ((sortItems_perm items0).flatMap_right _)
        refine ⟨?_, ?_, ?_⟩
        · simp only [TreeInv]
          refine ⟨fun _ => List.Perm.refl _, fun hk => absurd hk (by split <;> decide), ?_⟩
          intro c hc
          split at hc <;>
            simp only [List.mem_cons, List.mem_singleton, List.not_mem_nil, or_false] at hc
          · rcases hc with rfl | rfl
            · exact hrI
            · exact hlI
          · rcases hc with rfl | rfl
            · exact hlI
            · exact hrI
        · dsimp only [HTree.kindOf]
          split <;> decide
        · dsimp only [HTree.getLeafIds]
          split
          · simp only [List.flatMap_cons, List.flatMap_nil, List.append_nil]
            refine (hrP.append hlP).trans ?_
            exact List.perm_append_comm.trans hcat
          · simp only [List.flatMap_cons, List.flatMap_nil, List.append_nil]
            exact (hlP.append hrP).trans hcat

/-- Height bound on a hierarchy tree (used to show the dfs fuel suffices). -/
def HeightLe : HTree → Nat → Prop
  | .node _ _ _ children _ _ _ _, n => 0 < n ∧ ∀ c ∈ children, HeightLe c (n - 1)

theorem HeightLe_mono : ∀ (n m : Nat), n ≤ m → ∀ (t : HTree), HeightLe t n → HeightLe t m := by
  intro n
  induction n with
  | zero =>
    intro m _ t h
    cases t with
    | node tid kind label children lids nid nty sz =>
      simp only [HeightLe] at h
      omega
  | succ n ihn =>
    intro m hm t h
    cases t with
    | node tid kind label children lids nid nty sz =>
      simp only [HeightLe] at h ⊢
      refine ⟨by omega, ?_⟩
      intro c hc
      exact ihn (m - 1) (by omega) c
        (by simpa using h.2 c hc)

/-- The node ids emitted by the layout dfs are, as a multiset, exactly the
subtree's stored `leaf_node_ids` (given enough fuel and the tree
invariant). -/
theorem dfsRows_fst_perm :
    ∀ (fuel : Nat) (t : HTree), HeightLe t fuel → TreeInv t →
      ∀ path, List.Perm ((dfsRows fuel t path).map Prod.fst) t.getLeafIds := by
  intro fuel
  induction fuel with
  | zero =>
    intro t hht
    exfalso
    cases t with
    | node tid kind label children lids node_id node_type sz =>
      simp only [HeightLe] at hht
      omega
  | succ n ihn =>
    intro t hht hinv path
    cases t with
    | node tid kind label children lids node_id node_type sz =>
      simp only [TreeInv] at hinv
      simp only [HeightLe] at hht
      obtain ⟨hconcat, hleaf, hch⟩ := hinv
      rw [dfsRows.eq_def]
      dsimp only
      split
      · next hkb =>
        have hk : kind = "leaf" := by simpa using hkb
        obtain ⟨nid, hnid, hne, hlids, _hchn⟩ := hleaf hk
        rw [hnid]
        dsimp only
        have hnb : (nid == "") = false := by simpa using hne
        rw [hnb]
        dsimp only [HTree.getLeafIds]
        rw [hlids]
        exact List.Perm.refl _
      · next hkb =>
        have hk : kind ≠ "leaf" := by simpa using hkb
        dsimp only [HTree.getLeafIds]
        have e1 : ((children.map (fun ch => dfsRows n ch (path ++ [tid]))).flatten).map
            Prod.fst
            = children.flatMap
                (fun ch => (dfsRows n ch (path ++ [tid])).map Prod.fst) := by
          rw [← List.flatMap_def, List.map_flatMap]
        rw [e1]
        refine List.Perm.trans ?_ (hconcat hk).symm
        refine List.Perm.flatMap_left _ ?_
        intro c hc
        exact ihn c (by simpa using hht.2 c hc) (hch c hc) (path ++ [tid])

theorem enumFrom_proj :
    ∀ (rows : List (String × List String)) (k : Nat),
      List.map LayoutRow.node_id ((List.enumFrom k rows).map
        (fun p => (⟨p.2.1, p.1, p.2.2.length, p.2.2⟩ : LayoutRow))) = rows.map Prod.fst := by
  intro rows
  induction rows with
  | nil => intro k; rfl
  | cons a l ih =>
    intro k
    rw [List.enumFrom, List.map_cons, List.map_cons]
    rw [ih (k + 1)]
    rfl

/-- `collectRows` lists exactly the dfs node ids, in order. -/
theorem collectRows_ids (fuel : Nat) (root : HTree) :
    (collectRows fuel root).map LayoutRow.node_id = (dfsRows fuel root []).map Prod.fst :=
  enumFrom_proj (dfsRows fuel root []) 0

theorem strContains_mem {l : List String} {x : String} : l.contains x = true ↔ x ∈ l :=
  List.elem_iff

theorem dedupKeep_subset (ns : List String) :
    ∀ (seen l : List String), ∀ x ∈ dedupKeep ns seen l, x ∈ ns := by
  intro seen l
  induction l generalizing seen with
  | nil => intro x hx; exact absurd hx (by simp [dedupKeep])
  | cons cid rest ih =>
    intro x hx
    rw [dedupKeep] at hx
    split at hx
    · exact ih seen x hx
    · next hcond =>
      rw [List.mem_cons] at hx
      rcases hx with rfl | hx
      · have h2 : ns.contains x = true := by
          rcases hb : ns.contains x with _ | _
          · rw [hb] at hcond; simp at hcond
          · rfl
        exact strContains_mem.mp h2
      · exact ih (cid :: seen) x hx

theorem dedupKeep_seen (ns : List String) :
    ∀ (seen l : List String), ∀ x ∈ dedupKeep ns seen l, seen.contains x = false := by
  intro seen l
  induction l generalizing seen with
  | nil => intro x hx; exact absurd hx (by simp [dedupKeep])
  | cons cid rest ih =>
    intro x hx
    rw [dedupKeep] at hx
    split at hx
    · exact ih seen x hx
    · next hcond =>
      rw [List.mem_cons] at hx
      rcases hx with rfl | hx
      · rcases hb : seen.contains x with _ | _
        · rfl
        · rw [hb] at hcond; simp at hcond
      · have h2 := ih (cid :: seen) x hx
        rcases hb : seen.contains x with _ | _
        · rfl
        · exfalso
          have : ((cid :: seen).contains x) = true := by
            rw [List.contains_cons]
            rw [hb]
            simp
          rw [this] at h2
          exact absurd h2 (by simp)

theorem dedupKeep_nodup (ns : List String) :
    ∀ (seen l : List String), (dedupKeep ns seen l).Nodup := by
  intro seen l
  induction l generalizing seen with
  | nil => simp [dedupKeep]
  | cons cid rest ih =>
    rw [dedupKeep]
    split
    · exact ih seen
    · refine List.Nodup.cons ?_ (ih (cid :: seen))
      intro hmem
      have h2 := dedupKeep_seen ns (cid :: seen) rest cid hmem
      rw [List.contains_cons] at h2
      simp at h2

theorem hNodeById_mem {nodes : List HNode} {nid : String} {n : HNode}
    (h : hNodeById nodes nid = some n) : n ∈ nodes := by
  rw [hNodeById] at h
  exact List.mem_reverse.mp (List.mem_of_find?_eq_some h)

theorem hNodeById_id {nodes : List HNode} {nid : String} {n : HNode}
    (h : hNodeById nodes nid = some n) : n.id = nid := by
  rw [hNodeById] at h
  have h2 := List.find?_some h
  simpa using h2

theorem hNodeById_isSome_of_mem {nodes : List HNode} {nid : String}
    (h : nid ∈ nodes.map HNode.id) : ∃ n, hNodeById nodes nid = some n := by
  rw [List.mem_map] at h
  obtain ⟨n, hn, hid⟩ := h
  rw [hNodeById]
  rw [← Option.isSome_iff_exists]
  rw [List.find?_isSome]
  exact ⟨n, List.mem_reverse.mpr hn, by simp [hid]⟩

/-- Mapped ids of a total lookup give back the looked-up id list. -/
theorem lookup_map_ids {Vec : Type} (vecOf : String → Option Vec) (nodes : List HNode) :
    ∀ (ids : List String), (∀ cid ∈ ids, cid ∈ nodes.map HNode.id) →
      (ids.filterMap (fun cid => (hNodeById nodes cid).map (fun n => (n, vecOf n.id)))).map
        (fun c => c.1.id) = ids := by
  intro ids
  induction ids with
  | nil => intro _; rfl
  | cons cid rest ih =>
    intro hsub
    obtain ⟨n, hn⟩ := hNodeById_isSome_of_mem (hsub cid (by simp))
    rw [List.filterMap_cons, hn]
    rw [Option.map_some', List.map_cons]
    rw [ih (fun c hc => hsub c (by simp [hc]))]
    rw [hNodeById_id hn]

/-- Every kept structural group has a duplicate-free child list drawn from
the selected node ids (and at least two children). -/
theorem sortNodes_perm (l : List HNode) : List.Perm (sortNodes l) l :=
  List.perm_insertionSort nodeLe l

theorem structuralGroups_sound (nodes : List HNode) (edges : List EdgeView) :
    ∀ g ∈ structuralGroups nodes edges,
      g.2.Nodup ∧ (∀ x ∈ g.2, x ∈ nodes.map HNode.id) ∧ 2 ≤ g.2.length := by
  intro g hg
  rw [structuralGroups] at hg
  rw [List.mem_filterMap] at hg
  obtain ⟨kv, _hkv, hsome⟩ := hg
  dsimp only at hsome
  split at hsome
  · exact absurd hsome (by simp)
  · next hlen =>
    injection hsome with h'
    subst h'
    refine ⟨dedupKeep_nodup _ _ _, ?_, ?_⟩
    · intro x hx
      exact dedupKeep_subset _ _ _ x hx
    · dsimp only
      omega

/-- Items produced by `_apply_structural_grouping` are well-formed whenever
all selected node ids are non-empty. -/
theorem structural_items_wf {Vec : Type} (vecOf : String → Option Vec)
    (nodes : List HNode) (edges : List EdgeView)
    (hne : ∀ n ∈ nodes, n.id ≠ "") :
    ∀ it ∈ _apply_structural_grouping vecOf nodes edges, ItemWF it := by
  intro it hit
  rw [_apply_structural_grouping] at hit
  dsimp only at hit
  rw [List.mem_append] at hit
  rcases hit with hit | hit
  · rw [List.mem_map] at hit
    obtain ⟨g, _hg, rfl⟩ := hit
    have hch : ∀ c ∈ (List.insertionSort (cidLe nodes) g.2).filterMap
        (fun cid => (hNodeById nodes cid).map (fun n => (n, vecOf n.id))), c.1.id ≠ "" := by
      intro c hc
      rw [List.mem_filterMap] at hc
      obtain ⟨cid, _hcid, hcm⟩ := hc
      rcases hn : hNodeById nodes cid with _ | n
      · rw [hn] at hcm; exact absurd hcm (by simp)
      · rw [hn] at hcm
        rw [Option.map_some'] at hcm
        injection hcm with h'
        subst h'
        exact hne n (hNodeById_mem hn)
    split
    · exact ⟨by decide, hch⟩
    · exact ⟨by decide, hch⟩
  · rw [List.mem_filterMap] at hit
    obtain ⟨n, hn, hsome⟩ := hit
    split at hsome
    · exact absurd hsome (by simp)
    · injection hsome with h'
      subst h'
      exact hne n ((sortNodes_perm nodes).mem_iff.mp hn)

theorem itemsLeafIds_append {Vec : Type} (a b : List (HItem Vec)) :
    itemsLeafIds (a ++ b) = itemsLeafIds a ++ itemsLeafIds b := by
  simp [itemsLeafIds]

theorem leaf_items_ids {Vec : Type} (vecOf : String → Option Vec) (consumed : List String) :
    ∀ (ns : List HNode),
      itemsLeafIds (ns.filterMap (fun n =>
        if consumed.contains n.id then none else some (HItem.leaf n (vecOf n.id)))) =
      (ns.filter (fun n => !(consumed.contains n.id))).map HNode.id := by
  intro ns
  induction ns with
  | nil => rfl
  | cons n rest ih =>
    rw [List.filterMap_cons, List.filter_cons]
    by_cases hb : consumed.contains n.id = true
    · rw [if_pos hb, if_neg (by rw [hb]; decide)]
      exact ih
    · have hb2 : consumed.contains n.id = false := by simpa using hb
      rw [if_neg hb, if_pos (by rw [hb2]; decide)]
      rw [itemsLeafIds_cons, ih, List.map_cons]
      rfl

theorem flatMap_nodup (groups : List ((String × String) × List String))
    (hdisj : List.Pairwise (fun g1 g2 => ∀ x ∈ g1.2, x ∉ g2.2) groups)
    (hnd : ∀ g ∈ groups, g.2.Nodup) :
    (groups.flatMap (fun g => g.2)).Nodup := by
  induction groups with
  | nil => simp
  | cons g rest ih =>
    rw [List.flatMap_cons]
    rw [List.pairwise_cons] at hdisj
    refine List.nodup_append.mpr
      ⟨hnd g (by simp), ih hdisj.2 (fun x hx => hnd x (by simp [hx])), ?_⟩
    intro a ha hamem
    rw [List.mem_flatMap] at hamem
    obtain ⟨g2, hg2, hag2⟩ := hamem
    exact hdisj.1 g2 hg2 a ha hag2

/-- Exact-cover: when the selected node ids are duplicate-free and the kept
structural groups are pairwise disjoint, the items' leaf ids are a
permutation of the selected ids. -/
theorem structural_cover {Vec : Type} (vecOf : String → Option Vec)
    (nodes : List HNode) (edges : List EdgeView)
    (hnd : (nodes.map HNode.id).Nodup)
    (hdisj : List.Pairwise (fun g1 g2 => ∀ x ∈ g1.2, x ∉ g2.2)
      (structuralGroups nodes edges)) :
    List.Perm (itemsLeafIds (_apply_structural_grouping vecOf nodes edges))
      (nodes.map HNode.id) := by
  have hsound := structuralGroups_sound nodes edges
  have hconsNd : ((structuralGroups nodes edges).flatMap (fun g => g.2)).Nodup :=
    flatMap_nodup _ hdisj (fun g hg => (hsound g hg).1)
  have hconsSub : ∀ x ∈ (structuralGroups nodes edges).flatMap (fun g => g.2),
      x ∈ nodes.map HNode.id := by
    intro x hx
    rw [List.mem_flatMap] at hx
    obtain ⟨g, hg, hxg⟩ := hx
    exact (hsound g hg).2.1 x hxg
  rw [_apply_structural_grouping]
  dsimp only
  rw [itemsLeafIds_append]
  have hA : List.Perm
      (itemsLeafIds ((structuralGroups nodes edges).map (fun g =>
        let etype := g.1.1
        let parent_id := g.1.2
        let sorted_ids := List.insertionSort (cidLe nodes) g.2
        let children := sorted_ids.filterMap
          (fun cid => (hNodeById nodes cid).map (fun n => (n, vecOf n.id)))
        let p6 : String := ⟨parent_id.data.take 6⟩
        if etype == "FOLDS" then
          HItem.group ("struct:" ++ etype ++ ":" ++ parent_id)
            ("Unfolded Fold · " ++ p6) "structural_fold" children
        else
          HItem.group ("struct:" ++ etype ++ ":" ++ parent_id)
            ("Split Parts · " ++ p6) "structural_split" children)))
      ((structuralGroups nodes edges).flatMap (fun g => g.2)) := by
    rw [itemsLeafIds, List.flatMap_map]
    refine List.Perm.flatMap_left _ ?_
    intro g hg
    have hsub : ∀ cid ∈ List.insertionSort (cidLe nodes) g.2, cid ∈ nodes.map HNode.id := by
      intro cid hc
      exact (hsound g hg).2.1 cid ((List.perm_insertionSort (cidLe nodes) g.2).mem_iff.mp hc)
    have hids := lookup_map_ids vecOf nodes (List.insertionSort (cidLe nodes) g.2) hsub
    dsimp only
    split <;>
      (dsimp only [HItem.leafIds]
       rw [hids]
       exact List.perm_insertionSort (cidLe nodes) g.2)
  have hB : List.Perm
      (itemsLeafIds ((sortNodes nodes).filterMap (fun n =>
        if ((structuralGroups nodes edges).flatMap (fun g => g.2)).contains n.id then none
        else some (HItem.leaf n (vecOf n.id)))))
      ((nodes.map HNode.id).filter
        (fun x => !(((structuralGroups nodes edges).flatMap (fun g => g.2)).contains x))) := by
    rw [leaf_items_ids]
    refine List.Perm.trans (((sortNodes_perm nodes).filter _).map _) ?_
    refine List.Perm.of_eq ?_
    rw [List.filter_map]
    rfl
  have hcf : List.Perm ((structuralGroups nodes edges).flatMap (fun g => g.2))
      ((nodes.map HNode.id).filter
        (fun x => ((structuralGroups nodes edges).flatMap (fun g => g.2)).contains x)) := by
    rw [List.perm_ext_iff_of_nodup hconsNd (hnd.filter _)]
    intro a
    rw [List.mem_filter]
    constructor
    · intro ha
      exact ⟨hconsSub a ha, strContains_mem.mpr ha⟩
    · intro ha
      exact strContains_mem.mp ha.2
  refine List.Perm.trans (List.Perm.append hA hB) ?_
  refine List.Perm.trans (List.Perm.append hcf (List.Perm.refl _)) ?_
  exact List.filter_append_perm _ _

theorem leafTree_height (n : HNode) (m : Nat) (h : 0 < m) :
    HeightLe (leafTreeOf n) m := by
  unfold leafTreeOf HeightLe
  exact ⟨h, fun c hc => absurd hc (by simp)⟩

theorem itemFlat_height {Vec : Type} (it : HItem Vec) : HeightLe (itemFlat it) 2 := by
  cases it with
  | leaf n v => exact leafTree_height n 2 (by omega)
  | group gid label kind gch =>
    simp only [itemFlat, HeightLe]
    refine ⟨by omega, ?_⟩
    intro c hc
    rw [List.mem_map] at hc
    obtain ⟨p, _hp, rfl⟩ := hc
    exact leafTree_height p.1 1 (by omega)

theorem fuelBase_height {Vec : Type} (items : List (HItem Vec)) (depth seq : Nat) :
    HeightLe (fuelBase items depth seq) 3 := by
  simp only [fuelBase, HeightLe]
  refine ⟨by omega, ?_⟩
  intro c hc
  rw [List.mem_map] at hc
  obtain ⟨it, _hit, rfl⟩ := hc
  exact HeightLe_mono 2 2 (by omega) _ (itemFlat_height it)

theorem buildStep_fold_height {Vec : Type}
    (rec : List (HItem Vec) → Nat → Nat → Nat → HTree × Nat) (mls depth m : Nat)
    (hrec : ∀ its a b c, HeightLe (rec its a b c).1 (m + 1)) :
    ∀ (items : List (HItem Vec)) (acc : List HTree × Nat),
      (∀ c ∈ acc.1, HeightLe c (m + 1)) →
      ∀ c ∈ (items.foldl (buildStep rec mls depth) acc).1, HeightLe c (m + 1) := by
  intro items
  induction items with
  | nil => intro acc hacc; exact hacc
  | cons it rest ih =>
    intro acc hacc
    rw [List.foldl_cons]
    refine ih (buildStep rec mls depth acc it) ?_
    cases it with
    | leaf n v =>
      intro c hc
      rw [buildStep] at hc
      rw [List.mem_append] at hc
      rcases hc with hc | hc
      · exact hacc c hc
      · rw [List.mem_singleton] at hc
        subst hc
        exact leafTree_height n (m + 1) (by omega)
    | group gid label kind gch =>
      intro c hc
      rw [buildStep] at hc
      dsimp only at hc
      have hh := hrec (gch.map (fun c => HItem.leaf c.1 c.2)) (max 2 (mls - 1))
        (depth + 1) acc.2
      rcases hr1 : (rec (gch.map (fun c => HItem.leaf c.1 c.2)) (max 2 (mls - 1))
          (depth + 1) acc.2).1 with ⟨a, b, lb, ch, lids, nid, nty, sz⟩
      rw [hr1] at hh hc
      simp only [HeightLe] at hh
      rw [List.mem_append] at hc
      rcases hc with hc | hc
      · exact hacc c hc
      · rw [List.mem_singleton] at hc
        subst hc
        simp only [HeightLe]
        refine ⟨by omega, ?_⟩
        intro c2 hc2
        have := hh.2 c2 hc2
        simpa using this

theorem buildRec_height {Vec : Type} (cosV : Vec → Vec → PyFloat)
    (meanV : List Vec → Option Vec) (allcloseV : Vec → Vec → Bool)
    (nodes : List HNode) :
    ∀ (fuel : Nat) (items : List (HItem Vec)) (mls depth seq : Nat),
      HeightLe (buildRec cosV meanV allcloseV nodes fuel items mls depth seq).1
        (fuel + 4) := by
  intro fuel
  induction fuel with
  | zero =>
    intro items mls depth seq
    simp only [buildRec]
    exact HeightLe_mono 3 4 (by omega) _ (fuelBase_height items depth seq)
  | succ fuel ih =>
    intro items mls depth seq
    simp only [buildRec]
    split
    · -- terminal
      simp only [HeightLe]
      refine ⟨by omega, ?_⟩
      intro c hc
      have hfold := buildStep_fold_height
        (fun its m d sq => buildRec cosV meanV allcloseV nodes fuel its m d sq)
        mls depth (fuel + 3) (fun its a b c2 => ih its a b c2)
        (sortItems items) ([], seq) (by intro c2 hc2; exact absurd hc2 (by simp))
      have := hfold c hc
      exact HeightLe_mono (fuel + 4) (fuel + 1 + 4 - 1) (by omega) c this
    · split
      · exact HeightLe_mono (fuel + 4) (fuel + 1 + 4) (by omega) _
          (ih (sortItems items) 10000 depth seq)
      · next li ri hpart =>
        simp only [HeightLe]
        refine ⟨by omega, ?_⟩
        intro c hc
        have hl := ih li mls (depth + 1) (seq + 1)
        have hr := ih ri mls (depth + 1)
          ((buildRec cosV meanV allcloseV nodes fuel li mls (depth + 1) (seq + 1)).2 + 1)
        split at hc <;>
          simp only [List.mem_cons, List.mem_singleton, List.not_mem_nil, or_false] at hc
        · rcases hc with rfl | rfl
          · exact HeightLe_mono (fuel + 4) (fuel + 1 + 4 - 1) (by omega) _ hr
          · exact HeightLe_mono (fuel + 4) (fuel + 1 + 4 - 1) (by omega) _ hl
        · rcases hc with rfl | rfl
          · exact HeightLe_mono (fuel + 4) (fuel + 1 + 4 - 1) (by omega) _ hl
          · exact HeightLe_mono (fuel + 4) (fuel + 1 + 4 - 1) (by omega) _ hr

theorem group_children_by_parent_nil :
    ∀ edges : List EdgeView, group_children_by_parent [] edges = [] := by
  intro edges
  induction edges with
  | nil => rfl
  | cons e rest ih =>
    rw [group_children_by_parent, List.foldl_cons]
    have hc : List.contains ([] : List String) e.to_id = false := rfl
    rw [group_children_by_parent] at ih
    simpa [hc] using ih

/-- C3 (amended): for every selection with non-empty node ids, every subtree
of the hierarchy preview satisfies the multiset concatenation invariant
(`leaf_node_ids` is a permutation of the concatenation of the children's —
the order can differ at structural group nodes), the leaf layout lists
exactly the top items' leaf ids as a multiset, and when the selected ids are
duplicate-free and the kept structural groups are pairwise disjoint (in
particular whenever no selected node has two distinct outside parents), the
leaf layout covers the selected node ids exactly once each. -/
theorem claim_C3_amended {Vec : Type} [Inhabited Vec] (cosV : Vec → Vec → PyFloat)
    (meanV : List Vec → Option Vec) (allcloseV : Vec → Vec → Bool)
    (vecOf : String → Option Vec) (nodes : List HNode) (edges : List EdgeView)
    (max_leaf_size : Nat) (hne : ∀ n ∈ nodes, n.id ≠ "") :
    TreeInv (build_hierarchy_preview cosV meanV allcloseV vecOf nodes edges max_leaf_size).root ∧
    List.Perm
      (leafLayoutIds (build_hierarchy_preview cosV meanV allcloseV vecOf nodes edges max_leaf_size))
      (itemsLeafIds (_apply_structural_grouping vecOf nodes edges)) ∧
    ((nodes.map HNode.id).Nodup →
      List.Pairwise (fun g1 g2 => ∀ x ∈ g1.2, x ∉ g2.2) (structuralGroups nodes edges) →
      List.Perm
        (leafLayoutIds (build_hierarchy_preview cosV meanV allcloseV vecOf nodes edges max_leaf_size))
        (nodes.map HNode.id)) := by
  have hwf := structural_items_wf vecOf nodes edges hne
  rw [build_hierarchy_preview]
  dsimp only
  split
  · -- empty selection
    next hemp =>
    have hnil : nodes = [] := List.isEmpty_iff.mp hemp
    subst hnil
    have happly : _apply_structural_grouping vecOf [] edges = [] := by
      rw [_apply_structural_grouping, structuralGroups]
      dsimp only [List.map]
      rw [group_children_by_parent_nil]
      rfl
    refine ⟨?_, ?_, ?_⟩
    · simp only [TreeInv]
      exact ⟨fun _ => List.Perm.of_eq rfl, fun hk => absurd hk (by decide),
        fun c hc => absurd hc (by simp)⟩
    · rw [happly]
      exact List.Perm.of_eq rfl
    · intro _ _
      exact List.Perm.of_eq rfl
  · next hemp =>
    obtain ⟨hI, hK, hP⟩ := buildRec_inv cosV meanV allcloseV nodes
      (2 * (((_apply_structural_grouping vecOf nodes edges).map itemFuel).sum) + 8)
      (_apply_structural_grouping vecOf nodes edges)
      (max 2 (if max_leaf_size = 0 then 6 else max_leaf_size)) 0 1 hwf
    rcases hr : (buildRec cosV meanV allcloseV nodes
        (2 * (((_apply_structural_grouping vecOf nodes edges).map itemFuel).sum) + 8)
        (_apply_structural_grouping vecOf nodes edges)
        (max 2 (if max_leaf_size = 0 then 6 else max_leaf_size)) 0 1).1 with
      ⟨a, b, lb, ch, lids, nid, nty, sz⟩
    rw [hr] at hI hK hP
    simp only [TreeInv] at hI
    dsimp only [HTree.kindOf] at hK
    dsimp only [HTree.getLeafIds] at hP
    obtain ⟨hc1, _hc2, hc3⟩ := hI
    dsimp only [leafLayoutIds]
    have hroot : TreeInv (HTree.node "root" "root" (if lb ≠ "" then lb else "Hierarchy")
        ch lids nid nty sz) := by
      simp only [TreeInv]
      exact ⟨fun _ => hc1 hK, fun hk => absurd hk (by decide), hc3⟩
    have hh := buildRec_height cosV meanV allcloseV nodes
      (2 * (((_apply_structural_grouping vecOf nodes edges).map itemFuel).sum) + 8)
      (_apply_structural_grouping vecOf nodes edges)
      (max 2 (if max_leaf_size = 0 then 6 else max_leaf_size)) 0 1
    rw [hr] at hh
    simp only [HeightLe] at hh
    have hrooth : HeightLe
        (HTree.node "root" "root" (if lb ≠ "" then lb else "Hierarchy") ch lids nid nty sz)
        (2 * (((_apply_structural_grouping vecOf nodes edges).map
          itemFuel).sum) + 8 + 4) := by
      simp only [HeightLe]
      exact ⟨by omega, hh.2⟩
    have hlay : List.Perm
        ((collectRows
          (2 * (((_apply_structural_grouping vecOf nodes edges).map
            itemFuel).sum) + 8 + 4)
          (HTree.node "root" "root" (if lb ≠ "" then lb else "Hierarchy")
            ch lids nid nty sz)).map LayoutRow.node_id) lids := by
      rw [collectRows_ids]
      exact dfsRows_fst_perm _ _ hrooth hroot []
    refine ⟨hroot, hlay.trans hP, ?_⟩
    intro hnd hdisj
    exact (hlay.trans hP).trans (structural_cover vecOf nodes edges hnd hdisj)

/-- C3, counterexample to the claim as stated.  First conjunct: with selected
nodes X, Y, Z and `HAS_PART` edges from the two outside parents P1 (to X, Y)
and P2 (to X, Z), the leaf layout lists X twice — each outside parent spawns
its own structural group and the `consumed` bookkeeping does not prevent a
node from joining several groups — so the leaves do not cover the input ids
"exactly once each ... including when a selected node is a child of more than
one parent outside the subset".  Second conjunct: with five children of one
outside parent (created t1..t5, texts zzz, zzz, aaa, aaa, aaa) and
max_leaf_size 2, the structural group node stores leaf_node_ids
[c1..c5] while its two label-sorted cluster children concatenate to
[c3, c4, c5, c1, c2]: the "concatenation in child order" part fails as well
(only the multiset equality survives). -/
theorem claim_C3_counterexample :
    ((leafLayoutIds (build_hierarchy_preview (fun _ _ => (⟨0, 1⟩ : PyFloat) : Unit → Unit → PyFloat)
        (fun _ => none) (fun _ _ => true) (fun _ => none)
        [⟨"X", "Note", "text of X", "t1", none⟩, ⟨"Y", "Note", "text of Y", "t2", none⟩,
         ⟨"Z", "Note", "text of Z", "t3", none⟩]
        [⟨"P1", "X", "HAS_PART"⟩, ⟨"P1", "Y", "HAS_PART"⟩, ⟨"P2", "X", "HAS_PART"⟩,
         ⟨"P2", "Z", "HAS_PART"⟩] 6)).count "X" = 2 ∧
      ([⟨"X", "Note", "text of X", "t1", none⟩, ⟨"Y", "Note", "text of Y", "t2", none⟩,
        ⟨"Z", "Note", "text of Z", "t3", none⟩] : List HNode).map HNode.id
        = ["X", "Y", "Z"]) ∧
    ((build_hierarchy_preview (fun _ _ => (⟨0, 1⟩ : PyFloat) : Unit → Unit → PyFloat) (fun _ => none)
        (fun _ _ => true) (fun _ => none)
        [⟨"c1", "Note", "zzz", "t1", none⟩, ⟨"c2", "Note", "zzz", "t2", none⟩,
         ⟨"c3", "Note", "aaa", "t3", none⟩, ⟨"c4", "Note", "aaa", "t4", none⟩,
         ⟨"c5", "Note", "aaa", "t5", none⟩]
        [⟨"P1", "c1", "HAS_PART"⟩, ⟨"P1", "c2", "HAS_PART"⟩, ⟨"P1", "c3", "HAS_PART"⟩,
         ⟨"P1", "c4", "HAS_PART"⟩, ⟨"P1", "c5", "HAS_PART"⟩] 2).root.childrenOf.map
        HTree.getLeafIds = [["c1", "c2", "c3", "c4", "c5"]] ∧
      (build_hierarchy_preview (fun _ _ => (⟨0, 1⟩ : PyFloat) : Unit → Unit → PyFloat) (fun _ => none)
        (fun _ _ => true) (fun _ => none)
        [⟨"c1", "Note", "zzz", "t1", none⟩, ⟨"c2", "Note", "zzz", "t2", none⟩,
         ⟨"c3", "Note", "aaa", "t3", none⟩, ⟨"c4", "Note", "aaa", "t4", none⟩,
         ⟨"c5", "Note", "aaa", "t5", none⟩]
        [⟨"P1", "c1", "HAS_PART"⟩, ⟨"P1", "c2", "HAS_PART"⟩, ⟨"P1", "c3", "HAS_PART"⟩,
         ⟨"P1", "c4", "HAS_PART"⟩, ⟨"P1", "c5", "HAS_PART"⟩] 2).root.childrenOf.map
        (fun c => c.childrenOf.flatMap HTree.getLeafIds)
        = [["c3", "c4", "c5", "c1", "c2"]]) := by
  decide

/-- C3, witness: on the disjoint-group instance (X, Y grouped under the one
outside parent P1, Z a plain leaf) the amended theorem instantiates to an
exact cover: the leaf layout is a permutation of the selected ids. -/
theorem claim_C3_witness :
    List.Perm
      (leafLayoutIds (build_hierarchy_preview (fun _ _ => (⟨0, 1⟩ : PyFloat) : Unit → Unit → PyFloat)
        (fun _ => none) (fun _ _ => true) (fun _ => none)
        [⟨"X", "Note", "text of X", "t1", none⟩, ⟨"Y", "Note", "text of Y", "t2", none⟩,
         ⟨"Z", "Note", "text of Z", "t3", none⟩]
        [⟨"P1", "X", "HAS_PART"⟩, ⟨"P1", "Y", "HAS_PART"⟩] 6))
      ["X", "Y", "Z"] :=
  (claim_C3_amended (fun _ _ => (⟨0, 1⟩ : PyFloat) : Unit → Unit → PyFloat) (fun _ => none) (fun _ _ => true)
    (fun _ => none)
    [⟨"X", "Note", "text of X", "t1", none⟩, ⟨"Y", "Note", "text of Y", "t2", none⟩,
     ⟨"Z", "Note", "text of Z", "t3", none⟩]
    [⟨"P1", "X", "HAS_PART"⟩, ⟨"P1", "Y", "HAS_PART"⟩] 6
    (by decide)).2.2 (by decide) (by decide)

end GoC
